import Mathlib

/-!
# Verification of the e2e ASR / disfluency-removal evaluator

Shallow embedding of the repository's alignment engine
(`min_distance.py` and `aligner.py`) and proofs about it.

The two Python modules implement a weighted minimum-edit-distance
alignment between a reference token sequence (disfluent words tagged by
UPPERCASE, in Python's `str.isupper` sense) and a hypothesis token
sequence, followed by a backtrace producing an edit sequence and a
scoring pass.  The two modules are token-for-token the same algorithm;
the inner cost-matrix loops, the scoring and report formatting are
shared definitions here, while each module keeps its own weight/flag
field names, its own backtrace (they build different `eval` strings)
and its own `align` entry point.

Modelling conventions:
* Python floats are modelled by exact rationals (`ℚ`); the epsilon
  perturbation `1e-7` becomes the exact rational `1 / 10000000`.  The
  spec states that the epsilon is small enough never to flip an
  integer-weight comparison, and all results below live in that regime.
* Sentences are modelled as token lists (`List String`); `str.split()`
  is modelled by `pySplit`.
* Python string predicates/conversions (`isupper`, `lower`, `upper`,
  `ljust`) are modelled for the ASCII strings this repository works
  with.
* Python list indexing (which wraps negative indices) is modelled by
  `pyNth`; indices that are out of range even after wrapping (where
  Python raises `IndexError`) fall back to a default value.
* The backtrace `while` loop is modelled with explicit fuel
  `|ref| + |hyp| + 1`; a run that does not finish within the fuel
  (which for the weight configurations used by the repository is shown
  to be impossible) is reported as `none`.
* `align` returns `AlignResult.valueError` for the `ValueError` raise,
  `.hang` if the backtrace loop does not finish, and `.ok report scores`
  otherwise.
-/

-- Batteries marks rational arithmetic `@[irreducible]`; re-enable
-- unfolding so that concrete alignments evaluate by `decide`.
attribute [local semireducible] Rat.add Rat.sub Rat.mul Rat.inv

/-! ## Python string and list primitives -/

/-- Helper for `pySplit`: cut a character list at whitespace. -/
def splitAux : List Char → List Char → List String
  | [], acc => [String.mk acc.reverse]
  | c :: cs, acc =>
    if c.isWhitespace then String.mk acc.reverse :: splitAux cs []
    else splitAux cs (c :: acc)

/-- Python `str.split()`: split on whitespace runs, dropping empty parts. -/
def pySplit (s : String) : List String :=
  (splitAux s.data []).filter (fun t => t ≠ "")

/-- A character is "cased" (ASCII): an upper- or lowercase letter. -/
def pyCased (c : Char) : Bool := c.isUpper || c.isLower

/-- Python `str.isupper()` (ASCII): at least one cased character, and
every cased character is uppercase. -/
def pyIsupper (s : String) : Bool :=
  s.data.any pyCased && s.data.all (fun c => !pyCased c || c.isUpper)

/-- Python `str.lower()` (ASCII). -/
def pyLower (s : String) : String := String.mk (s.data.map Char.toLower)

/-- Python `str.upper()` (ASCII). -/
def pyUpper (s : String) : String := String.mk (s.data.map Char.toUpper)

/-- Python `s.ljust(w, fill)`: pad `s` on the right to width `w`. -/
def pyLjust (s : String) (w : Nat) (fill : Char) : String :=
  s ++ String.mk (List.replicate (w - s.length) fill)

/-- `' ' * k` (for `k < 0` Python yields `''`, matched by `Nat` subtraction
at call sites). -/
def spaces (k : Nat) : String := String.mk (List.replicate k ' ')

/-- `'*' * k`. -/
def stars (k : Nat) : String := String.mk (List.replicate k '*')

/-- Python list indexing `l[k]`: negative indices wrap around once
(`l[-1]` is the last element).  Out-of-range indices raise `IndexError`
in Python; the model returns the default `d` there (all verified runs
stay in range). -/
def pyNth {α : Type} (l : List α) (k : ℤ) (d : α) : α :=
  if 0 ≤ k then l.getD k.toNat d else l.getD (l.length + k).toNat d

/-- Python `min` over a list (left fold).  Python raises on an empty
list; the model returns `0` there (verified runs never do this). -/
def pyMin (l : List ℚ) : ℚ :=
  match l with
  | [] => 0
  | x :: xs => xs.foldl min x

/-! ## Shared data of the two modules -/

/-- The epsilon perturbation `1e-7` of the modified weights. -/
def eps : ℚ := 1 / 10000000

/-- One edit operation, mirroring the Python dict
`dict(type=..., eval=..., ref=..., hyp=...)`. -/
structure Edit where
  type : String
  eval : String
  ref : String
  hyp : String
deriving DecidableEq, Repr

/-- Result of `align`: the `ValueError` raise, a backtrace loop that
does not finish, or the report string together with the score list. -/
inductive AlignResult
  | valueError
  | hang
  | ok (report : String) (scores : List Nat)
deriving DecidableEq, Repr

/-- `small_value = 1e-7 if (w_ref.isupper() and <modified flag>) else 0`
(identical in both modules). -/
def smallValue (modified : Bool) (w : String) : ℚ :=
  if pyIsupper w && modified then eps else 0

/-- Inner loop of `cost_matrix` over the hypothesis tokens (identical in
both modules): given the last current-row cell and the previous row
starting at position `i_hyp`, emit the remaining current-row cells.
`deletions  = previous_row[i_hyp + 1] + (del_weight - small_value)`,
`insertions = current_row[i_hyp] + (ins_weight + small_value)`,
`substitutions = previous_row[i_hyp] + (sub_weight * (w_ref != w_hyp) + small_value)`,
cell = `min(insertions, deletions, substitutions)`.
(The catch-all branch is out of the Python domain: the previous row is
always one longer than the hypothesis.) -/
def currentRowAux (insW delW subW s : ℚ) (wl : String) :
    ℚ → List ℚ → List String → List ℚ
  | last, p0 :: p1 :: ps, wh :: whs =>
    let deletions := p1 + (delW - s)
    let insertions := last + (insW + s)
    let substitutions := p0 + (subW * (if wl = wh then 0 else 1) + s)
    let cell := min insertions (min deletions substitutions)
    cell :: currentRowAux insW delW subW s wl cell (p1 :: ps) whs
  | _, _, _ => []

/-- Body of the outer loop of `cost_matrix`: build the row for reference
token `w` (the `i1`-th row, `i1 = i_ref + 1`), from the previous row.
`current_row = [(del_weight - small_value) * (i_ref + 1)]` then the
inner loop. -/
def buildRow (insW delW subW : ℚ) (modified : Bool) (hyp : List String)
    (prev : List ℚ) (w : String) (i1 : ℕ) : List ℚ :=
  let s := smallValue modified w
  let wl := pyLower w
  let first := (delW - s) * (i1 : ℚ)
  first :: currentRowAux insW delW subW s wl first prev hyp

/-- Outer loop of `cost_matrix` over the reference tokens. -/
def costRows (insW delW subW : ℚ) (modified : Bool) (hyp : List String) :
    List ℚ → ℕ → List String → List (List ℚ)
  | _, _, [] => []
  | prev, i1, w :: ws =>
    let cur := buildRow insW delW subW modified hyp prev w i1
    cur :: costRows insW delW subW modified hyp cur (i1 + 1) ws

/-- Row 0 of the cost matrix:
`range(0, len(hyp) * ins_weight + 1, ins_weight)`, i.e.
`[0, ins, 2*ins, ..., len(hyp)*ins]`.  This models Python's `range`
only on its valid domain, a positive integral insertion weight (the
repository always uses one): with a zero step Python's `range` itself
raises `ValueError`, and with a non-integral step `TypeError`, so
theorems about other weight configurations must not rely on this
definition. -/
def row0 (insW : ℚ) (m : ℕ) : List ℚ :=
  (List.range (m + 1)).map (fun j : ℕ => (j : ℚ) * insW)

/-- The scores line(s) of the report: Python
`('Fluent:    (#C #S #D #I) {} {} {} {} \nDisfluent: (#C #S #D #I) {} {} {} {}\n'
if <modified flag> else 'Scores: (#C #S #D #I) {} {} {} {}\n').format(*scores)`
(identical in both modules). -/
def scoresLine (modified : Bool) (scores : List ℕ) : String :=
  let r := fun (k : ℕ) => Nat.repr (scores.getD k 0)
  if modified then
    "Fluent:    (#C #S #D #I) " ++ r 0 ++ " " ++ r 1 ++ " " ++ r 2 ++ " " ++ r 3
      ++ " \nDisfluent: (#C #S #D #I) " ++ r 4 ++ " " ++ r 5 ++ " " ++ r 6
      ++ " " ++ r 7 ++ "\n"
  else
    "Scores: (#C #S #D #I) " ++ r 0 ++ " " ++ r 1 ++ " " ++ r 2 ++ " " ++ r 3 ++ "\n"

/-- The three-line alignment report plus the scores line(s)
(identical in both modules). -/
def report (modified : Bool) (edits : List Edit) (scores : List ℕ) : String :=
  "REF: \t" ++ String.intercalate " " (edits.map Edit.ref) ++ "\n"
    ++ "HYP: \t" ++ String.intercalate " " (edits.map Edit.hyp) ++ "\n"
    ++ "Eval: \t" ++ String.join (edits.map (fun e => pyUpper e.eval)) ++ "\n"
    ++ scoresLine modified scores

/-- `total_score` (identical in both modules): counts of
match/substitution/deletion/insertion. -/
def total_score (edits : List Edit) : List ℕ :=
  let operations := edits.map Edit.type
  [operations.count "match",
   operations.count "substitution",
   operations.count "deletion",
   operations.count "insertion"]

/-- `region_score` (identical in both modules): counts split by
`op['ref'].isupper()` (fluent = `False` first, disfluent = `True`
second). -/
def region_score (edits : List Edit) : List ℕ :=
  let operations := edits.map (fun op => (op.type, pyIsupper op.ref))
  [operations.count ("match", false),
   operations.count ("substitution", false),
   operations.count ("deletion", false),
   operations.count ("insertion", false),
   operations.count ("match", true),
   operations.count ("substitution", true),
   operations.count ("deletion", true),
   operations.count ("insertion", true)]

/-! ## The `min_distance.py` module -/

namespace min_distance

/-- The `MinDistance` object of `min_distance.py` after `__init__`:
`Ref`/`Hyp` already split into tokens, plus the weight configuration
(defaults `ins_weight=3`, `del_weight=3`, `sub_weight=4`,
`modified_weights=False`). -/
structure MinDistance where
  ref : List String
  hyp : List String
  ins_weight : ℚ
  del_weight : ℚ
  sub_weight : ℚ
  modified_weights : Bool

/-- `__init__` from the raw sentence strings. -/
def mkMinDistance (Ref Hyp : String) (insW delW subW : ℚ) (modW : Bool) :
    MinDistance :=
  ⟨pySplit Ref, pySplit Hyp, insW, delW, subW, modW⟩

/-- `cost_matrix`. -/
def cost_matrix (md : MinDistance) : List (List ℚ) :=
  row0 md.ins_weight md.hyp.length ::
    costRows md.ins_weight md.del_weight md.sub_weight md.modified_weights
      md.hyp (row0 md.ins_weight md.hyp.length) 1 md.ref

/-- The matrix entry `rows[i][j]` (by nonnegative index). -/
def entry (md : MinDistance) (i j : ℕ) : ℚ :=
  ((cost_matrix md).getD i []).getD j 0

/-- One iteration of the `backtrace` while loop at state `(i, j)`:
returns the emitted edit and the next state, or `none` if none of the
five rules fires (in Python the loop would then spin forever). -/
def btStep (md : MinDistance) (rows : List (List ℚ)) (i j : ℤ) :
    Option (Edit × ℤ × ℤ) :=
  let prev_cost := pyNth (pyNth rows i []) j 0
  let neighbors :=
    (if i ≠ 0 ∧ j ≠ 0 then [pyNth (pyNth rows (i - 1) []) (j - 1) 0] else []) ++
    (if i ≠ 0 then [pyNth (pyNth rows (i - 1) []) j 0] else []) ++
    (if j ≠ 0 then [pyNth (pyNth rows i []) (j - 1) 0] else [])
  let s := smallValue md.modified_weights (pyNth md.ref (i - 1) "")
  let min_cost := pyMin neighbors + s
  if prev_cost = min_cost then
    let r := pyNth md.ref (i - 1) ""
    let h := pyNth md.hyp (j - 1) ""
    some (⟨"match", spaces (r.length + 1), r, h⟩, i - 1, j - 1)
  else if i ≠ 0 ∧ j ≠ 0 ∧
      prev_cost = pyNth (pyNth rows (i - 1) []) (j - 1) 0 + (md.sub_weight + s) then
    let r := pyNth md.ref (i - 1) ""
    let h := pyNth md.hyp (j - 1) ""
    some (⟨"substitution", "s" ++ spaces (max r.length h.length),
      r ++ spaces (h.length - r.length), h ++ spaces (r.length - h.length)⟩,
      i - 1, j - 1)
  else if (i ≠ 0 ∧ prev_cost = pyNth (pyNth rows (i - 1) []) j 0 + (md.del_weight - s))
      ∨ j = 0 then
    let r := pyNth md.ref (i - 1) ""
    some (⟨"deletion", "d" ++ spaces r.length, r, stars r.length⟩, i - 1, j)
  else if (j ≠ 0 ∧ prev_cost = pyNth (pyNth rows i []) (j - 1) 0 + (md.ins_weight + s))
      ∨ i = 0 then
    let h := pyNth md.hyp (j - 1) ""
    some (⟨"insertion", "i" ++ spaces h.length, stars h.length, h⟩, i, j - 1)
  else if prev_cost = pyNth (pyNth rows (i - 1) []) (j - 1) 0 + s then
    let r := pyNth md.ref (i - 1) ""
    let h := pyNth md.hyp (j - 1) ""
    some (⟨"match", spaces (r.length + 1), r, h⟩, i - 1, j - 1)
  else
    none

/-- The `backtrace` while loop, with fuel.  Edits are appended in
backtrace (right-to-left) order, exactly as in the Python list. -/
def btLoop (md : MinDistance) (rows : List (List ℚ)) :
    ℕ → ℤ → ℤ → List Edit → Option (List Edit)
  | 0, _, _, _ => none
  | fuel + 1, i, j, acc =>
    if i = 0 ∧ j = 0 then some acc
    else
      match btStep md rows i j with
      | none => none
      | some (e, i', j') => btLoop md rows fuel i' j' (acc ++ [e])

/-- `backtrace`: run the loop from `(len(ref), len(hyp))` and reverse
the edit list at the end.  The fuel `|ref| + |hyp| + 1` covers every
terminating run of the Python loop for the repository's weight
configurations (each iteration decreases `i + j` by at least 1). -/
def backtrace (md : MinDistance) : Option (List Edit) :=
  (btLoop md (cost_matrix md) (md.ref.length + md.hyp.length + 1)
    (md.ref.length : ℤ) (md.hyp.length : ℤ) []).map List.reverse

/-- The list of states `(i, j)` visited by the `backtrace` loop
(including the terminal state), in visit order. -/
def btStates (md : MinDistance) (rows : List (List ℚ)) :
    ℕ → ℤ → ℤ → List (ℤ × ℤ)
  | 0, _, _ => []
  | fuel + 1, i, j =>
    (i, j) ::
      (if i = 0 ∧ j = 0 then []
       else
         match btStep md rows i j with
         | none => []
         | some (_, i', j') => btStates md rows fuel i' j')

/-- The states visited by `backtrace`. -/
def backtraceStates (md : MinDistance) : List (ℤ × ℤ) :=
  btStates md (cost_matrix md) (md.ref.length + md.hyp.length + 1)
    (md.ref.length : ℤ) (md.hyp.length : ℤ)

/-- The `i`-th row of the cost matrix, described recursively: row 0,
then `buildRow` applied to the previous row (proof-support definition;
`cost_matrix_getD` below identifies it with `cost_matrix`). -/
def matRow (md : MinDistance) : ℕ → List ℚ
  | 0 => row0 md.ins_weight md.hyp.length
  | i + 1 =>
    buildRow md.ins_weight md.del_weight md.sub_weight md.modified_weights
      md.hyp (matRow md i) (md.ref.getD i "") (i + 1)

/-- The guard of the first `match` rule of the backtrace:
`prev_cost == min(neighbors) + small_value` (the same expression that
`btStep` tests first). -/
def rule1Guard (md : MinDistance) (rows : List (List ℚ)) (i j : ℤ) : Prop :=
  pyNth (pyNth rows i []) j 0 =
    pyMin ((if i ≠ 0 ∧ j ≠ 0 then [pyNth (pyNth rows (i - 1) []) (j - 1) 0] else []) ++
      (if i ≠ 0 then [pyNth (pyNth rows (i - 1) []) j 0] else []) ++
      (if j ≠ 0 then [pyNth (pyNth rows i []) (j - 1) 0] else [])) +
    smallValue md.modified_weights (pyNth md.ref (i - 1) "")

/-- `zero_length`: one deletion per reference token. -/
def zero_length (md : MinDistance) : List Edit :=
  md.ref.map (fun w => ⟨"deletion", "d" ++ spaces w.length, w, stars w.length⟩)

/-- The edit sequence `align` works on:
`self.zero_length() if not len(self.hyp) else self.backtrace()`. -/
def alignEdits (md : MinDistance) : Option (List Edit) :=
  if md.hyp.length = 0 then some (zero_length md) else backtrace md

/-- `align`: raise `ValueError` on an empty reference; otherwise score
the edit sequence and return the report together with
`scores[:4] + [fluent_wrds] + scores[4:] + [disfluent_wrds]`. -/
def align (md : MinDistance) : AlignResult :=
  if md.ref.length = 0 then .valueError
  else
    match alignEdits md with
    | none => .hang
    | some edits =>
      let scores := if md.modified_weights then region_score edits
                    else total_score edits
      let disfluent_wrds := (md.ref.filter (fun w => pyIsupper w)).length
      let fluent_wrds := if md.modified_weights then md.ref.length - disfluent_wrds
                         else md.ref.length
      .ok (report md.modified_weights edits scores)
        (scores.take 4 ++ [fluent_wrds] ++ scores.drop 4 ++ [disfluent_wrds])

end min_distance

/-! ## The `aligner.py` module

Same algorithm; the weight fields are named `insertion` / `deletion` /
`substitution`, the flag `m_weights`, and the `eval` strings of the
edits are built with `ljust` and capital letters (`'S'`, `'D'`, `'I'`).
-/

namespace aligner

/-- The `MinDistance` object of `aligner.py` after `__init__`
(defaults `insertion=3`, `deletion=3`, `substitution=4`; `m_weights` is
a required argument). -/
structure MinDistance where
  ref : List String
  hyp : List String
  insertion : ℚ
  deletion : ℚ
  substitution : ℚ
  m_weights : Bool

/-- `__init__` from the raw sentence strings. -/
def mkMinDistance (Ref Hyp : String) (insW delW subW : ℚ) (mW : Bool) :
    MinDistance :=
  ⟨pySplit Ref, pySplit Hyp, insW, delW, subW, mW⟩

/-- The corresponding `min_distance.MinDistance` object. -/
def toMD (a : MinDistance) : min_distance.MinDistance :=
  ⟨a.ref, a.hyp, a.insertion, a.deletion, a.substitution, a.m_weights⟩

/-- `cost_matrix` (same loops as `min_distance.cost_matrix`). -/
def cost_matrix (a : MinDistance) : List (List ℚ) :=
  row0 a.insertion a.hyp.length ::
    costRows a.insertion a.deletion a.substitution a.m_weights
      a.hyp (row0 a.insertion a.hyp.length) 1 a.ref

/-- One iteration of `aligner.py`'s `backtrace` loop; identical rules,
but the `eval` strings are `''.ljust(...)`, `'S'.ljust(...)`,
`'D'.ljust(...)`, `'I'.ljust(...)`. -/
def btStep (a : MinDistance) (rows : List (List ℚ)) (i j : ℤ) :
    Option (Edit × ℤ × ℤ) :=
  let prev_cost := pyNth (pyNth rows i []) j 0
  let neighbors :=
    (if i ≠ 0 ∧ j ≠ 0 then [pyNth (pyNth rows (i - 1) []) (j - 1) 0] else []) ++
    (if i ≠ 0 then [pyNth (pyNth rows (i - 1) []) j 0] else []) ++
    (if j ≠ 0 then [pyNth (pyNth rows i []) (j - 1) 0] else [])
  let s := smallValue a.m_weights (pyNth a.ref (i - 1) "")
  let min_cost := pyMin neighbors + s
  if prev_cost = min_cost then
    let r := pyNth a.ref (i - 1) ""
    let h := pyNth a.hyp (j - 1) ""
    some (⟨"match", pyLjust "" (r.length + 1) ' ', r, h⟩, i - 1, j - 1)
  else if i ≠ 0 ∧ j ≠ 0 ∧
      prev_cost = pyNth (pyNth rows (i - 1) []) (j - 1) 0 + (a.substitution + s) then
    let r := pyNth a.ref (i - 1) ""
    let h := pyNth a.hyp (j - 1) ""
    some (⟨"substitution", pyLjust "S" (max r.length h.length + 1) ' ',
      r ++ spaces (h.length - r.length), h ++ spaces (r.length - h.length)⟩,
      i - 1, j - 1)
  else if (i ≠ 0 ∧ prev_cost = pyNth (pyNth rows (i - 1) []) j 0 + (a.deletion - s))
      ∨ j = 0 then
    let r := pyNth a.ref (i - 1) ""
    some (⟨"deletion", pyLjust "D" (r.length + 1) ' ', r, stars r.length⟩, i - 1, j)
  else if (j ≠ 0 ∧ prev_cost = pyNth (pyNth rows i []) (j - 1) 0 + (a.insertion + s))
      ∨ i = 0 then
    let h := pyNth a.hyp (j - 1) ""
    some (⟨"insertion", pyLjust "I" (h.length + 1) ' ', stars h.length, h⟩, i, j - 1)
  else if prev_cost = pyNth (pyNth rows (i - 1) []) (j - 1) 0 + s then
    let r := pyNth a.ref (i - 1) ""
    let h := pyNth a.hyp (j - 1) ""
    some (⟨"match", pyLjust "" (r.length + 1) ' ', r, h⟩, i - 1, j - 1)
  else
    none

/-- The `backtrace` while loop of `aligner.py`, with fuel. -/
def btLoop (a : MinDistance) (rows : List (List ℚ)) :
    ℕ → ℤ → ℤ → List Edit → Option (List Edit)
  | 0, _, _, _ => none
  | fuel + 1, i, j, acc =>
    if i = 0 ∧ j = 0 then some acc
    else
      match btStep a rows i j with
      | none => none
      | some (e, i', j') => btLoop a rows fuel i' j' (acc ++ [e])

/-- `backtrace` of `aligner.py`. -/
def backtrace (a : MinDistance) : Option (List Edit) :=
  (btLoop a (cost_matrix a) (a.ref.length + a.hyp.length + 1)
    (a.ref.length : ℤ) (a.hyp.length : ℤ) []).map List.reverse

/-- `zero_length` of `aligner.py` (`'D'.ljust(len + 1, ' ')`). -/
def zero_length (a : MinDistance) : List Edit :=
  a.ref.map (fun w => ⟨"deletion", pyLjust "D" (w.length + 1) ' ', w, stars w.length⟩)

/-- The edit sequence `align` works on. -/
def alignEdits (a : MinDistance) : Option (List Edit) :=
  if a.hyp.length = 0 then some (zero_length a) else backtrace a

/-- `align` of `aligner.py`. -/
def align (a : MinDistance) : AlignResult :=
  if a.ref.length = 0 then .valueError
  else
    match alignEdits a with
    | none => .hang
    | some edits =>
      let scores := if a.m_weights then region_score edits
                    else total_score edits
      let d_wrds := (a.ref.filter (fun w => pyIsupper w)).length
      let f_wrds := if a.m_weights then a.ref.length - d_wrds else a.ref.length
      .ok (report a.m_weights edits scores)
        (scores.take 4 ++ [f_wrds] ++ scores.drop 4 ++ [d_wrds])

end aligner

/-! ## The classic Levenshtein distance (specification side)

Written from the spec's words for the refinement claim: the textbook
unit-cost recurrence (Wagner–Fischer), not taken from the repository. -/

/-- The classic unweighted Levenshtein distance between two token
sequences: `lev [] ys = |ys|`, `lev xs [] = |xs|`, and for nonempty
lists the minimum of deleting `x`, inserting `y`, and
matching/substituting the heads. -/
def lev : List String → List String → ℕ
  | [], ys => ys.length
  | xs, [] => xs.length
  | x :: xs, y :: ys =>
    min (lev xs (y :: ys) + 1)
      (min (lev (x :: xs) ys + 1)
        (lev xs ys + (if x = y then 0 else 1)))

/-- Capitalize the `eval` string of an edit, leaving the other fields
unchanged.  `aligner.py` builds its `eval` strings already capitalized
(`'S'`, `'D'`, `'I'`); `min_distance.py` builds them lowercase and
capitalizes in the report.  This map mediates between the two. -/
def capEval (e : Edit) : Edit := ⟨e.type, pyUpper e.eval, e.ref, e.hyp⟩

/-- An edit script between two token sequences with its total unit
cost: the graph of "ys is reachable from xs with n single-token edits".
Used to show the Levenshtein distance is invariant under reversing both
sequences. -/
inductive Aln : List String → List String → ℕ → Prop
  | nil : Aln [] [] 0
  | mtch {xs ys n} (x : String) : Aln xs ys n → Aln (x :: xs) (x :: ys) n
  | subst {xs ys n} (x y : String) : Aln xs ys n → Aln (x :: xs) (y :: ys) (n + 1)
  | delete {xs ys n} (x : String) : Aln xs ys n → Aln (x :: xs) ys (n + 1)
  | insert {xs ys n} (y : String) : Aln xs ys n → Aln xs (y :: ys) (n + 1)

/-! ## Lemmas: Python primitives -/

theorem pyNth_natCast {α : Type} (l : List α) (d : α) (k : ℕ) :
    pyNth l (k : ℤ) d = l.getD k d := by
  simp [pyNth]

theorem pyNth_natCast_sub_one {α : Type} (l : List α) (d : α) (k : ℕ)
    (hk : 1 ≤ k) : pyNth l ((k : ℤ) - 1) d = l.getD (k - 1) d := by
  have h : ((k : ℤ) - 1) = ((k - 1 : ℕ) : ℤ) := by omega
  rw [h, pyNth_natCast]

theorem eps_pos : 0 < eps := by norm_num [eps]

theorem smallValue_nonneg (M : Bool) (w : String) : 0 ≤ smallValue M w := by
  unfold smallValue; split
  · exact le_of_lt eps_pos
  · exact le_refl 0

theorem smallValue_le_eps (M : Bool) (w : String) : smallValue M w ≤ eps := by
  unfold smallValue; split
  · exact le_refl _
  · exact le_of_lt eps_pos

theorem smallValue_of_not_isupper (M : Bool) {w : String}
    (h : pyIsupper w = false) : smallValue M w = 0 := by
  simp [smallValue, h]

theorem smallValue_false (w : String) : smallValue false w = 0 := by
  simp [smallValue]

theorem row0_length (insW : ℚ) (m : ℕ) : (row0 insW m).length = m + 1 := by
  simp [row0]

theorem row0_getD (insW : ℚ) (m j : ℕ) (hj : j ≤ m) :
    (row0 insW m).getD j 0 = (j : ℚ) * insW := by
  rw [row0, List.getD_eq_getElem?_getD, List.getElem?_map,
    List.getElem?_range (by omega : j < m + 1)]
  rfl

/-! ## Lemmas: cost-matrix structure -/

theorem currentRowAux_length (insW delW subW s : ℚ) (wl : String) :
    ∀ (hyps : List String) (prev : List ℚ) (last : ℚ),
      (currentRowAux insW delW subW s wl last prev hyps).length =
        min (prev.length - 1) hyps.length := by
  intro hyps
  induction hyps with
  | nil =>
    intro prev last
    cases prev with
    | nil => simp [currentRowAux]
    | cons p0 ps => cases ps <;> simp [currentRowAux]
  | cons wh whs ih =>
    intro prev last
    match prev with
    | [] => simp [currentRowAux]
    | [p0] => simp [currentRowAux]
    | p0 :: p1 :: ps =>
      rw [currentRowAux]
      simp only [List.length_cons, ih]
      omega

namespace min_distance

theorem matRow_length (md : MinDistance) :
    ∀ i, (matRow md i).length = md.hyp.length + 1 := by
  intro i
  induction i with
  | zero => exact row0_length _ _
  | succ k ih =>
    show (buildRow _ _ _ _ _ _ _ _).length = _
    rw [buildRow]
    simp only [List.length_cons, currentRowAux_length, ih]
    omega

theorem costRows_drop_getD (md : MinDistance) :
    ∀ (ws : List String) (i0 : ℕ), ws = md.ref.drop i0 →
      ∀ k, k < ws.length →
        (costRows md.ins_weight md.del_weight md.sub_weight md.modified_weights
            md.hyp (matRow md i0) (i0 + 1) ws).getD k [] = matRow md (i0 + k + 1) := by
  intro ws
  induction ws with
  | nil => intro i0 _ k hk; simp at hk
  | cons w ws' ih =>
    intro i0 hdrop k hk
    have hget : md.ref.getD i0 "" = w := by
      have h0 : (md.ref.drop i0)[0]? = md.ref[i0]? := by
        rw [List.getElem?_drop]
        simp
      rw [← hdrop] at h0
      simp only [List.getElem?_cons_zero] at h0
      simp [List.getD_eq_getElem?_getD, ← h0]
    have hrow : buildRow md.ins_weight md.del_weight md.sub_weight
        md.modified_weights md.hyp (matRow md i0) w (i0 + 1) = matRow md (i0 + 1) := by
      show _ = buildRow _ _ _ _ _ _ _ _
      rw [hget]
    cases k with
    | zero =>
      rw [costRows]
      simpa using hrow
    | succ kk =>
      rw [costRows]
      simp only [List.getD_cons_succ]
      rw [hrow]
      have hdrop' : ws' = md.ref.drop (i0 + 1) := by
        have : md.ref.drop (i0 + 1) = (md.ref.drop i0).drop 1 := by
          rw [List.drop_drop]
        rw [this, ← hdrop, List.drop_one, List.tail_cons]
      have := ih (i0 + 1) hdrop' kk (by simpa using hk)
      rw [show i0 + 1 + 1 = i0 + 2 by omega] at this
      rw [this]
      congr 1
      omega

theorem cost_matrix_getD (md : MinDistance) (i : ℕ) (hi : i ≤ md.ref.length) :
    (cost_matrix md).getD i [] = matRow md i := by
  cases i with
  | zero => rfl
  | succ k =>
    have h := costRows_drop_getD md md.ref 0 (by simp) k (by omega)
    simp only [Nat.zero_add] at h
    rw [cost_matrix]
    simp only [List.getD_cons_succ]
    exact h

theorem entry_eq_matRow (md : MinDistance) {i : ℕ} (hi : i ≤ md.ref.length)
    (j : ℕ) : entry md i j = (matRow md i).getD j 0 := by
  rw [entry, cost_matrix_getD md i hi]

theorem entry_row0 (md : MinDistance) (j : ℕ) (hj : j ≤ md.hyp.length) :
    entry md 0 j = (j : ℚ) * md.ins_weight := by
  rw [entry_eq_matRow md (Nat.zero_le _) j]
  exact row0_getD _ _ _ hj

theorem entry_col0 (md : MinDistance) (i : ℕ) (hi : i + 1 ≤ md.ref.length) :
    entry md (i + 1) 0 =
      (md.del_weight - smallValue md.modified_weights (md.ref.getD i "")) *
        ((i + 1 : ℕ) : ℚ) := by
  rw [entry_eq_matRow md hi 0]
  show (buildRow _ _ _ _ _ _ _ _).getD 0 0 = _
  rw [buildRow]
  rfl

end min_distance

theorem currentRowAux_getD (insW delW subW s : ℚ) (wl : String) :
    ∀ (hyps : List String) (prev : List ℚ) (last : ℚ) (j : ℕ),
      j < hyps.length → prev.length = hyps.length + 1 →
      (last :: currentRowAux insW delW subW s wl last prev hyps).getD (j + 1) 0 =
        min ((last :: currentRowAux insW delW subW s wl last prev hyps).getD j 0
            + (insW + s))
          (min (prev.getD (j + 1) 0 + (delW - s))
            (prev.getD j 0 +
              (subW * (if wl = hyps.getD j "" then 0 else 1) + s))) := by
  intro hyps
  induction hyps with
  | nil => intro prev last j hj _; simp at hj
  | cons wh whs ih =>
    intro prev last j hj hlen
    match prev, hlen with
    | p0 :: p1 :: ps, hlen =>
      rw [currentRowAux]
      cases j with
      | zero => simp
      | succ jj =>
        have hlen' : (p1 :: ps).length = whs.length + 1 := by
          simpa using hlen
        have := ih (p1 :: ps)
          (min (last + (insW + s))
            (min (p1 + (delW - s)) (p0 + (subW * (if wl = wh then 0 else 1) + s))))
          jj (by simpa using hj) hlen'
        simpa using this

namespace min_distance

/-- The interior recurrence of the cost matrix, as the Python loop
computes it: `cell = min(insertions, min(deletions, substitutions))`. -/
theorem entry_rec (md : MinDistance) (i j : ℕ) (hi : i + 1 ≤ md.ref.length)
    (hj : j + 1 ≤ md.hyp.length) :
    entry md (i + 1) (j + 1) =
      min (entry md (i + 1) j
          + (md.ins_weight + smallValue md.modified_weights (md.ref.getD i "")))
        (min (entry md i (j + 1)
            + (md.del_weight - smallValue md.modified_weights (md.ref.getD i "")))
          (entry md i j +
            (md.sub_weight *
              (if pyLower (md.ref.getD i "") = md.hyp.getD j "" then 0 else 1) +
              smallValue md.modified_weights (md.ref.getD i "")))) := by
  rw [entry_eq_matRow md hi (j + 1), entry_eq_matRow md hi j,
    entry_eq_matRow md (by omega : i ≤ md.ref.length) (j + 1),
    entry_eq_matRow md (by omega : i ≤ md.ref.length) j]
  show (buildRow _ _ _ _ _ _ _ _).getD (j + 1) 0 = _
  rw [buildRow]
  exact currentRowAux_getD _ _ _ _ _ md.hyp (matRow md i) _ j (by omega)
    (by rw [matRow_length])

end min_distance

namespace min_distance

theorem btStep_row0 (md : MinDistance) (hIns : md.ins_weight = 3)
    (j : ℕ) (hj1 : 1 ≤ j) (hj : j ≤ md.hyp.length) :
    btStep md (cost_matrix md) 0 (j : ℤ) =
      some (⟨"insertion", "i" ++ spaces (md.hyp.getD (j - 1) "").length,
        stars (md.hyp.getD (j - 1) "").length, md.hyp.getD (j - 1) ""⟩,
        0, (j : ℤ) - 1) := by
  have hjz : (j : ℤ) ≠ 0 := by omega
  have e1 : pyNth (pyNth (cost_matrix md) (0 : ℤ) []) (j : ℤ) 0 = entry md 0 j := by
    rw [show ((0:ℤ)) = ((0:ℕ):ℤ) by norm_num, pyNth_natCast, pyNth_natCast]; rfl
  have e2 : pyNth (pyNth (cost_matrix md) (0 : ℤ) []) ((j : ℤ) - 1) 0 =
      entry md 0 (j - 1) := by
    rw [show ((0:ℤ)) = ((0:ℕ):ℤ) by norm_num, pyNth_natCast, pyNth_natCast_sub_one _ _ _ hj1]
    rfl
  have hs0 : 0 ≤ smallValue md.modified_weights (pyNth md.ref ((0:ℤ) - 1) "") :=
    smallValue_nonneg _ _
  have hs1 : smallValue md.modified_weights (pyNth md.ref ((0:ℤ) - 1) "") ≤ eps :=
    smallValue_le_eps _ _
  have hv1 : entry md 0 j = (j : ℚ) * 3 := by rw [entry_row0 md j hj, hIns]
  have hv2 : entry md 0 (j - 1) = ((j : ℚ) - 1) * 3 := by
    rw [entry_row0 md (j - 1) (by omega), hIns]
    congr 1
    push_cast [hj1]
    ring
  have hhyptok : pyNth md.hyp ((j : ℤ) - 1) "" = md.hyp.getD (j - 1) "" :=
    pyNth_natCast_sub_one _ _ _ hj1
  simp only [btStep]
  rw [if_neg, if_neg, if_neg, if_pos]
  · rw [hhyptok]
  · right; trivial
  · rintro (⟨h, _⟩ | h)
    · exact h rfl
    · exact hjz h
  · rintro ⟨h, _⟩
    exact h rfl
  · simp only [ne_eq, not_true_eq_false, false_and, if_false, hjz, not_false_eq_true,
      if_true, List.nil_append]
    rw [e1, e2]
    intro hcontra
    rw [hv1, hv2] at hcontra
    have hpm : pyMin [((j : ℚ) - 1) * 3] = ((j : ℚ) - 1) * 3 := rfl
    rw [hpm] at hcontra
    have heps : eps < 3 := by norm_num [eps]
    nlinarith

end min_distance

namespace min_distance

/-- Column-0 entries all have the form `(del - s') * i` with `s'` an
epsilon value. -/
theorem entry_col0_form (md : MinDistance) (i : ℕ) (hi : i ≤ md.ref.length) :
    ∃ s' : ℚ, 0 ≤ s' ∧ s' ≤ eps ∧ entry md i 0 = (md.del_weight - s') * (i : ℚ) := by
  cases i with
  | zero =>
    refine ⟨0, le_refl 0, le_of_lt eps_pos, ?_⟩
    rw [entry_row0 md 0 (Nat.zero_le _)]
    push_cast
    ring
  | succ k =>
    refine ⟨smallValue md.modified_weights (md.ref.getD k ""),
      smallValue_nonneg _ _, smallValue_le_eps _ _, ?_⟩
    exact entry_col0 md k hi

theorem btStep_col0 (md : MinDistance) (hDel : md.del_weight = 3)
    (hreg : md.modified_weights = false ∨ md.ref.length ≤ 10000000)
    (i : ℕ) (hi1 : 1 ≤ i) (hi : i ≤ md.ref.length) :
    btStep md (cost_matrix md) (i : ℤ) 0 =
      some (⟨"deletion", "d" ++ spaces (md.ref.getD (i - 1) "").length,
        md.ref.getD (i - 1) "", stars (md.ref.getD (i - 1) "").length⟩,
        (i : ℤ) - 1, 0) := by
  have hiz : (i : ℤ) ≠ 0 := by omega
  have e1 : pyNth (pyNth (cost_matrix md) (i : ℤ) []) (0 : ℤ) 0 = entry md i 0 := by
    rw [show ((0:ℤ)) = ((0:ℕ):ℤ) by norm_num, pyNth_natCast, pyNth_natCast]; rfl
  have e2 : pyNth (pyNth (cost_matrix md) ((i : ℤ) - 1) []) (0 : ℤ) 0 =
      entry md (i - 1) 0 := by
    rw [show ((0:ℤ)) = ((0:ℕ):ℤ) by norm_num, pyNth_natCast_sub_one _ _ _ hi1,
      pyNth_natCast]
    rfl
  have hreftok : pyNth md.ref ((i : ℤ) - 1) "" = md.ref.getD (i - 1) "" :=
    pyNth_natCast_sub_one _ _ _ hi1
  have hv1 : entry md i 0 =
      (3 - smallValue md.modified_weights (md.ref.getD (i - 1) "")) * (i : ℚ) := by
    obtain ⟨k, rfl⟩ : ∃ k, i = k + 1 := ⟨i - 1, by omega⟩
    have := entry_col0 md k hi
    rw [hDel] at this
    simpa using this
  obtain ⟨s', hs'0, hs'1, hv2⟩ := entry_col0_form md (i - 1) (by omega)
  rw [hDel, Nat.cast_sub hi1, Nat.cast_one] at hv2
  have hs0 : 0 ≤ smallValue md.modified_weights (md.ref.getD (i - 1) "") :=
    smallValue_nonneg _ _
  have hs1 : smallValue md.modified_weights (md.ref.getD (i - 1) "") ≤ eps :=
    smallValue_le_eps _ _
  have hge : (1:ℚ) ≤ (i:ℚ) := by exact_mod_cast hi1
  simp only [btStep]
  rw [hreftok]
  rw [if_neg, if_neg, if_pos]
  · exact Or.inr trivial
  · rintro ⟨_, h, _⟩
    exact h rfl
  · simp only [ne_eq, not_true_eq_false, and_false, if_false, hiz, not_false_eq_true,
      if_true, List.append_nil, List.nil_append]
    rw [e1, e2]
    intro hcontra
    rw [hv1, hv2] at hcontra
    have hpm : pyMin [(3 - s') * ((i : ℚ) - 1)] = (3 - s') * ((i : ℚ) - 1) := rfl
    rw [hpm] at hcontra
    have hnn : 0 ≤ s' * ((i:ℚ) - 1) := mul_nonneg hs'0 (by linarith)
    rcases hreg with hM | hn
    · rw [hM, smallValue_false] at hcontra
      nlinarith
    · have hle : (i:ℚ) ≤ 10000000 := by
        have h : i ≤ 10000000 := le_trans hi hn
        exact_mod_cast h
      have heps : eps = 1/10000000 := rfl
      nlinarith [mul_le_mul_of_nonneg_right hs1 (by linarith : (0:ℚ) ≤ (i:ℚ) + 1)]

end min_distance

namespace min_distance

theorem btStep_interior (md : MinDistance) (i j : ℕ)
    (hi : i + 1 ≤ md.ref.length) (hj : j + 1 ≤ md.hyp.length) :
    ∃ e irem jrem,
      btStep md (cost_matrix md) ((i + 1 : ℕ) : ℤ) ((j + 1 : ℕ) : ℤ) =
        some (e, irem, jrem) ∧
      ((e.type = "match" ∨ e.type = "substitution") ∧ irem = (i : ℤ) ∧ jrem = (j : ℤ) ∨
        e.type = "deletion" ∧ irem = (i : ℤ) ∧ jrem = ((j + 1 : ℕ) : ℤ) ∨
        e.type = "insertion" ∧ irem = ((i + 1 : ℕ) : ℤ) ∧ jrem = (j : ℤ)) := by
  have hIz : ((i + 1 : ℕ) : ℤ) ≠ 0 := by omega
  have hJz : ((j + 1 : ℕ) : ℤ) ≠ 0 := by omega
  have hIsub : ((i + 1 : ℕ) : ℤ) - 1 = (i : ℤ) := by push_cast; ring
  have hJsub : ((j + 1 : ℕ) : ℤ) - 1 = (j : ℤ) := by push_cast; ring
  have eP : pyNth (pyNth (cost_matrix md) ((i + 1 : ℕ) : ℤ) []) ((j + 1 : ℕ) : ℤ) 0 =
      entry md (i + 1) (j + 1) := by
    rw [pyNth_natCast, pyNth_natCast]; rfl
  have eD : pyNth (pyNth (cost_matrix md) (((i + 1 : ℕ) : ℤ) - 1) [])
      (((j + 1 : ℕ) : ℤ) - 1) 0 = entry md i j := by
    rw [hIsub, hJsub, pyNth_natCast, pyNth_natCast]; rfl
  have eU : pyNth (pyNth (cost_matrix md) (((i + 1 : ℕ) : ℤ) - 1) [])
      ((j + 1 : ℕ) : ℤ) 0 = entry md i (j + 1) := by
    rw [hIsub, pyNth_natCast, pyNth_natCast]; rfl
  have eL : pyNth (pyNth (cost_matrix md) ((i + 1 : ℕ) : ℤ) [])
      (((j + 1 : ℕ) : ℤ) - 1) 0 = entry md (i + 1) j := by
    rw [hJsub, pyNth_natCast, pyNth_natCast]; rfl
  have hreftok : pyNth md.ref (((i + 1 : ℕ) : ℤ) - 1) "" = md.ref.getD i "" := by
    rw [hIsub, pyNth_natCast]
  have hhyptok : pyNth md.hyp (((j + 1 : ℕ) : ℤ) - 1) "" = md.hyp.getD j "" := by
    rw [hJsub, pyNth_natCast]
  have hrec := entry_rec md i j hi hj
  have hIfalse : (((i + 1 : ℕ) : ℤ) = 0) = False := eq_false hIz
  have hJfalse : (((j + 1 : ℕ) : ℤ) = 0) = False := eq_false hJz
  simp only [btStep, ne_eq, hIfalse, hJfalse, not_false_eq_true, and_self, if_true,
    or_false, true_and, hreftok, hhyptok, eP, eD, eU, eL]
  split_ifs with h1 h2 h3 h4 h5
  · exact ⟨_, _, _, rfl, Or.inl ⟨Or.inl rfl, by rw [hIsub], by rw [hJsub]⟩⟩
  · exact ⟨_, _, _, rfl, Or.inl ⟨Or.inr rfl, by rw [hIsub], by rw [hJsub]⟩⟩
  · exact ⟨_, _, _, rfl, Or.inr (Or.inl ⟨rfl, by rw [hIsub], rfl⟩)⟩
  · exact ⟨_, _, _, rfl, Or.inr (Or.inr ⟨rfl, rfl, by rw [hJsub]⟩)⟩
  · exact ⟨_, _, _, rfl, Or.inl ⟨Or.inl rfl, by rw [hIsub], by rw [hJsub]⟩⟩
  · exfalso
    rcases min_cases (entry md (i + 1) j +
        (md.ins_weight + smallValue md.modified_weights (md.ref.getD i "")))
      (min (entry md i (j + 1) +
          (md.del_weight - smallValue md.modified_weights (md.ref.getD i "")))
        (entry md i j +
          (md.sub_weight *
            (if pyLower (md.ref.getD i "") = md.hyp.getD j "" then 0 else 1) +
            smallValue md.modified_weights (md.ref.getD i "")))) with
      ⟨hmin, _⟩ | ⟨hmin, _⟩
    · rw [hmin] at hrec
      exact h4 hrec
    · rw [hmin] at hrec
      rcases min_cases (entry md i (j + 1) +
          (md.del_weight - smallValue md.modified_weights (md.ref.getD i "")))
        (entry md i j +
          (md.sub_weight *
            (if pyLower (md.ref.getD i "") = md.hyp.getD j "" then 0 else 1) +
            smallValue md.modified_weights (md.ref.getD i ""))) with
        ⟨hmin2, _⟩ | ⟨hmin2, _⟩
      · rw [hmin2] at hrec
        exact h3 hrec
      · rw [hmin2] at hrec
        by_cases hc : pyLower (md.ref.getD i "") = md.hyp.getD j ""
        · apply h5
          rw [if_pos hc] at hrec
          rw [hrec]
          ring
        · apply h2
          rw [if_neg hc] at hrec
          rw [hrec]
          ring

end min_distance

namespace min_distance

/-- At every non-terminal in-bounds state, the backtrace takes a step:
match/substitution move diagonally (needing `i, j ≥ 1`), deletion moves
up (needing `i ≥ 1`), insertion moves left (needing `j ≥ 1`). -/
theorem btStep_total (md : MinDistance) (hIns : md.ins_weight = 3)
    (hDel : md.del_weight = 3)
    (hreg : md.modified_weights = false ∨ md.ref.length ≤ 10000000)
    (i j : ℕ) (hi : i ≤ md.ref.length) (hj : j ≤ md.hyp.length)
    (hnz : ¬(i = 0 ∧ j = 0)) :
    ∃ e irem jrem,
      btStep md (cost_matrix md) (i : ℤ) (j : ℤ) = some (e, irem, jrem) ∧
      ((e.type = "match" ∨ e.type = "substitution") ∧ 1 ≤ i ∧ 1 ≤ j ∧
          irem = ((i - 1 : ℕ) : ℤ) ∧ jrem = ((j - 1 : ℕ) : ℤ) ∨
        e.type = "deletion" ∧ 1 ≤ i ∧ irem = ((i - 1 : ℕ) : ℤ) ∧ jrem = (j : ℤ) ∨
        e.type = "insertion" ∧ 1 ≤ j ∧ irem = (i : ℤ) ∧ jrem = ((j - 1 : ℕ) : ℤ)) := by
  rcases Nat.eq_zero_or_pos i with hi0 | hi1
  · subst hi0
    have hj1 : 1 ≤ j := by omega
    refine ⟨⟨"insertion", "i" ++ spaces (md.hyp.getD (j - 1) "").length,
      stars (md.hyp.getD (j - 1) "").length, md.hyp.getD (j - 1) ""⟩,
      0, (j : ℤ) - 1, ?_, Or.inr (Or.inr ⟨rfl, hj1, by omega, by omega⟩)⟩
    exact_mod_cast btStep_row0 md hIns j hj1 hj
  · rcases Nat.eq_zero_or_pos j with hj0 | hj1
    · subst hj0
      refine ⟨⟨"deletion", "d" ++ spaces (md.ref.getD (i - 1) "").length,
        md.ref.getD (i - 1) "", stars (md.ref.getD (i - 1) "").length⟩,
        (i : ℤ) - 1, 0, ?_, Or.inr (Or.inl ⟨rfl, hi1, by omega, by omega⟩)⟩
      exact_mod_cast btStep_col0 md hDel hreg i hi1 hi
    · obtain ⟨i', rfl⟩ : ∃ i', i = i' + 1 := ⟨i - 1, by omega⟩
      obtain ⟨j', rfl⟩ : ∃ j', j = j' + 1 := ⟨j - 1, by omega⟩
      obtain ⟨e, irem, jrem, hstep, hout⟩ := btStep_interior md i' j' hi hj
      refine ⟨e, irem, jrem, hstep, ?_⟩
      rcases hout with ⟨ht, hir, hjr⟩ | ⟨ht, hir, hjr⟩ | ⟨ht, hir, hjr⟩
      · exact Or.inl ⟨ht, by omega, by omega, by simpa using hir, by simpa using hjr⟩
      · exact Or.inr (Or.inl ⟨ht, by omega, by simpa using hir, by simpa using hjr⟩)
      · exact Or.inr (Or.inr ⟨ht, by omega, by simpa using hir, by simpa using hjr⟩)

/-- The backtrace loop terminates within `i + j` iterations from any
in-bounds state and yields an edit list whose per-type counts cover the
two sentences. -/
theorem btLoop_run (md : MinDistance) (hIns : md.ins_weight = 3)
    (hDel : md.del_weight = 3)
    (hreg : md.modified_weights = false ∨ md.ref.length ≤ 10000000) :
    ∀ (fuel : ℕ) (i j : ℕ) (acc : List Edit), i ≤ md.ref.length →
      j ≤ md.hyp.length → i + j < fuel →
      ∃ es, btLoop md (cost_matrix md) fuel (i : ℤ) (j : ℤ) acc = some (acc ++ es) ∧
        (es.map Edit.type).count "match" + (es.map Edit.type).count "substitution"
          + (es.map Edit.type).count "deletion" = i ∧
        (es.map Edit.type).count "match" + (es.map Edit.type).count "substitution"
          + (es.map Edit.type).count "insertion" = j ∧
        max i j ≤ es.length ∧ es.length ≤ i + j := by
  intro fuel
  induction fuel with
  | zero => intro i j acc _ _ hfuel; omega
  | succ fuel ih =>
    intro i j acc hi hj hfuel
    by_cases hnz : i = 0 ∧ j = 0
    · obtain ⟨rfl, rfl⟩ := hnz
      refine ⟨[], ?_, by simp, by simp, by simp, by simp⟩
      rw [btLoop]
      simp
    · obtain ⟨e, irem, jrem, hstep, hout⟩ :=
        btStep_total md hIns hDel hreg i j hi hj hnz
      have hcond : ¬((i : ℤ) = 0 ∧ (j : ℤ) = 0) := by
        intro ⟨h1, h2⟩
        exact hnz ⟨by exact_mod_cast h1, by exact_mod_cast h2⟩
      rcases hout with ⟨ht, hi1, hj1, hir, hjr⟩ | ⟨ht, hi1, hir, hjr⟩ |
        ⟨ht, hj1, hir, hjr⟩
      · obtain ⟨es', hrun, hc1, hc2, hl1, hl2⟩ :=
          ih (i - 1) (j - 1) (acc ++ [e]) (by omega) (by omega) (by omega)
        refine ⟨e :: es', ?_, ?_, ?_, by simp only [List.length_cons]; omega,
          by simp only [List.length_cons]; omega⟩
        · rw [btLoop, if_neg hcond, hstep]
          dsimp only
          rw [hir, hjr, hrun]
          simp
        · rcases ht with ht | ht <;>
            simp only [List.map_cons, List.count_cons, ht] <;> simp <;> omega
        · rcases ht with ht | ht <;>
            simp only [List.map_cons, List.count_cons, ht] <;> simp <;> omega
      · obtain ⟨es', hrun, hc1, hc2, hl1, hl2⟩ :=
          ih (i - 1) j (acc ++ [e]) (by omega) hj (by omega)
        refine ⟨e :: es', ?_, ?_, ?_, by simp only [List.length_cons]; omega,
          by simp only [List.length_cons]; omega⟩
        · rw [btLoop, if_neg hcond, hstep]
          dsimp only
          rw [hir, hjr, hrun]
          simp
        · simp only [List.map_cons, List.count_cons, ht]
          simp
          omega
        · simp only [List.map_cons, List.count_cons, ht]
          simp
          omega
      · obtain ⟨es', hrun, hc1, hc2, hl1, hl2⟩ :=
          ih i (j - 1) (acc ++ [e]) hi (by omega) (by omega)
        refine ⟨e :: es', ?_, ?_, ?_, by simp only [List.length_cons]; omega,
          by simp only [List.length_cons]; omega⟩
        · rw [btLoop, if_neg hcond, hstep]
          dsimp only
          rw [hir, hjr, hrun]
          simp
        · simp only [List.map_cons, List.count_cons, ht]
          simp
          omega
        · simp only [List.map_cons, List.count_cons, ht]
          simp
          omega

end min_distance

/-- Counting a `(tag, false)` and a `(tag, true)` pair separately adds
up to counting the tag in the first components. -/
theorem count_pairs_split (l : List (String × Bool)) (t : String) :
    l.count (t, false) + l.count (t, true) = (l.map Prod.fst).count t := by
  induction l with
  | nil => simp
  | cons p ps ih =>
    obtain ⟨a, b⟩ := p
    simp only [List.count_cons, List.map_cons]
    rw [← ih]
    cases b <;> by_cases h : a = t <;> subst_eqs <;> simp <;> omega

namespace min_distance

theorem backtrace_run (md : MinDistance) (hIns : md.ins_weight = 3)
    (hDel : md.del_weight = 3)
    (hreg : md.modified_weights = false ∨ md.ref.length ≤ 10000000) :
    ∃ es, backtrace md = some es ∧
      (es.map Edit.type).count "match" + (es.map Edit.type).count "substitution"
        + (es.map Edit.type).count "deletion" = md.ref.length ∧
      (es.map Edit.type).count "match" + (es.map Edit.type).count "substitution"
        + (es.map Edit.type).count "insertion" = md.hyp.length ∧
      max md.ref.length md.hyp.length ≤ es.length ∧
      es.length ≤ md.ref.length + md.hyp.length := by
  obtain ⟨es, hrun, hc1, hc2, hl1, hl2⟩ :=
    btLoop_run md hIns hDel hreg (md.ref.length + md.hyp.length + 1)
      md.ref.length md.hyp.length [] (le_refl _) (le_refl _) (by omega)
  refine ⟨es.reverse, ?_, ?_, ?_, by simpa using hl1, by simpa using hl2⟩
  · rw [backtrace, hrun]
    simp
  · simpa [List.map_reverse] using hc1
  · simpa [List.map_reverse] using hc2

end min_distance

/-- C1: for non-empty reference and hypothesis under the default
weights (ins=3, del=3, sub=4, match=0), with or without modified
weights (for modified weights, within the `ε ≪ 1` regime the spec
guarantees: at most `10^7` reference tokens), the Edit Sequence has
length at least `max(|ref|, |hyp|)`, and the operation counts satisfy
`match + sub + del = |ref|` and `match + sub + ins = |hyp|`, both over
the edit list and over the Score Tuple (summing fluent and disfluent
sub-counts when modified weights are enabled). -/
theorem C1_edit_counts (ref hyp : List String) (b : Bool)
    (href : ref ≠ []) (hhyp : hyp ≠ [])
    (hreg : b = false ∨ ref.length ≤ 10000000) :
    ∃ es, min_distance.backtrace ⟨ref, hyp, 3, 3, 4, b⟩ = some es ∧
      max ref.length hyp.length ≤ es.length ∧
      (es.map Edit.type).count "match" + (es.map Edit.type).count "substitution"
        + (es.map Edit.type).count "deletion" = ref.length ∧
      (es.map Edit.type).count "match" + (es.map Edit.type).count "substitution"
        + (es.map Edit.type).count "insertion" = hyp.length ∧
      (∃ rep sc, min_distance.align ⟨ref, hyp, 3, 3, 4, b⟩ = .ok rep sc) ∧
      (∀ rep sc, min_distance.align ⟨ref, hyp, 3, 3, 4, b⟩ = .ok rep sc →
        sc.getD 0 0 + sc.getD 1 0 + sc.getD 2 0 +
          (if b then sc.getD 5 0 + sc.getD 6 0 + sc.getD 7 0 else 0) = ref.length ∧
        sc.getD 0 0 + sc.getD 1 0 + sc.getD 3 0 +
          (if b then sc.getD 5 0 + sc.getD 6 0 + sc.getD 8 0 else 0) = hyp.length) := by
  obtain ⟨es, hbt, hc1, hc2, hl1, hl2⟩ :=
    min_distance.backtrace_run ⟨ref, hyp, 3, 3, 4, b⟩ rfl rfl hreg
  refine ⟨es, hbt, hl1, hc1, hc2, ?_, ?_⟩
  all_goals
    have hhlen : hyp.length ≠ 0 := by
      intro h
      exact hhyp (List.length_eq_zero.mp h)
    have hrlen : ¬(ref.length = 0) := by
      intro h
      exact href (List.length_eq_zero.mp h)
    have hedits : min_distance.alignEdits ⟨ref, hyp, 3, 3, 4, b⟩ = some es := by
      rw [min_distance.alignEdits, if_neg hhlen]
      exact hbt
  · rw [min_distance.align, if_neg hrlen, hedits]
    exact ⟨_, _, rfl⟩
  · intro rep sc h
    rw [min_distance.align, if_neg hrlen, hedits] at h
    injection h with _ hsc
    subst hsc
    constructor
    · cases b
      · simp only [Bool.false_eq_true, if_false]
        simp [total_score, ← hc1]
      · simp only [if_true]
        simp only [region_score, total_score] at hc1 ⊢
        simp only [List.take, List.drop, List.append_assoc, List.cons_append,
          List.nil_append, List.getD_cons_zero, List.getD_cons_succ]
        have s1 := count_pairs_split (es.map (fun op => (op.type, pyIsupper op.ref))) "match"
        have s2 := count_pairs_split (es.map (fun op => (op.type, pyIsupper op.ref))) "substitution"
        have s3 := count_pairs_split (es.map (fun op => (op.type, pyIsupper op.ref))) "deletion"
        have hmap : (es.map (fun op => (op.type, pyIsupper op.ref))).map Prod.fst
            = es.map Edit.type := by
          rw [List.map_map]
          rfl
        rw [hmap] at s1 s2 s3
        omega
    · cases b
      · simp only [Bool.false_eq_true, if_false]
        simp [total_score, ← hc2]
      · simp only [if_true]
        simp only [region_score, total_score] at hc2 ⊢
        simp only [List.take, List.drop, List.append_assoc, List.cons_append,
          List.nil_append, List.getD_cons_zero, List.getD_cons_succ]
        have s1 := count_pairs_split (es.map (fun op => (op.type, pyIsupper op.ref))) "match"
        have s2 := count_pairs_split (es.map (fun op => (op.type, pyIsupper op.ref))) "substitution"
        have s3 := count_pairs_split (es.map (fun op => (op.type, pyIsupper op.ref))) "insertion"
        have hmap : (es.map (fun op => (op.type, pyIsupper op.ref))).map Prod.fst
            = es.map Edit.type := by
          rw [List.map_map]
          rfl
        rw [hmap] at s1 s2 s3
        omega

theorem C1_edit_counts_witness :
    ∃ es, min_distance.backtrace ⟨["a"], ["b"], 3, 3, 4, true⟩ = some es ∧
      max (["a"] : List String).length (["b"] : List String).length ≤ es.length ∧
      (es.map Edit.type).count "match" + (es.map Edit.type).count "substitution"
        + (es.map Edit.type).count "deletion" = (["a"] : List String).length ∧
      (es.map Edit.type).count "match" + (es.map Edit.type).count "substitution"
        + (es.map Edit.type).count "insertion" = (["b"] : List String).length ∧
      (∃ rep sc, min_distance.align ⟨["a"], ["b"], 3, 3, 4, true⟩ = .ok rep sc) ∧
      (∀ rep sc, min_distance.align ⟨["a"], ["b"], 3, 3, 4, true⟩ = .ok rep sc →
        sc.getD 0 0 + sc.getD 1 0 + sc.getD 2 0 +
          (if true then sc.getD 5 0 + sc.getD 6 0 + sc.getD 7 0 else 0) =
            (["a"] : List String).length ∧
        sc.getD 0 0 + sc.getD 1 0 + sc.getD 3 0 +
          (if true then sc.getD 5 0 + sc.getD 6 0 + sc.getD 8 0 else 0) =
            (["b"] : List String).length) :=
  C1_edit_counts ["a"] ["b"] true (by decide) (by decide) (Or.inr (by norm_num))

/-- C9: for every non-empty reference and any hypothesis under the
default weights, with or without modified weights (for modified
weights, within the `ε ≪ 1` regime: at most `10^7` reference tokens),
the backtrace loop terminates, taking at most `|ref| + |hyp|`
iterations (one edit per iteration). -/
theorem C9_backtrace_terminates (ref hyp : List String) (b : Bool)
    (href : ref ≠ []) (hreg : b = false ∨ ref.length ≤ 10000000) :
    ∃ es, min_distance.backtrace ⟨ref, hyp, 3, 3, 4, b⟩ = some es ∧
      es.length ≤ ref.length + hyp.length := by
  obtain ⟨es, hbt, _, _, _, hl⟩ :=
    min_distance.backtrace_run ⟨ref, hyp, 3, 3, 4, b⟩ rfl rfl hreg
  exact ⟨es, hbt, hl⟩

theorem C9_backtrace_terminates_witness :
    ∃ es, min_distance.backtrace ⟨["THE", "the"], ["the"], 3, 3, 4, true⟩ = some es ∧
      es.length ≤ (["THE", "the"] : List String).length + (["the"] : List String).length :=
  C9_backtrace_terminates ["THE", "the"] ["the"] true (by decide) (Or.inr (by norm_num))

/-- C6: `align` raises `ValueError` exactly when the reference has zero
tokens — for every hypothesis, every positive integral insertion weight,
every deletion/substitution weight and either flag; the check is the
first statement of `align`, before any matrix or edit-sequence work.
The insertion weight is restricted to the valid domain of the `range`
call in `cost_matrix`: with `ins_weight = 0` Python's
`range(0, len(hyp)*0 + 1, 0)` itself raises a `ValueError` even for a
non-empty reference, so the claimed equivalence only holds on this
domain (the only one the repository uses). -/
theorem C6_value_error_iff_empty_ref (ref hyp : List String) (insN : ℕ)
    (dW sW : ℚ) (b : Bool) (hins : 1 ≤ insN) :
    min_distance.align ⟨ref, hyp, (insN : ℚ), dW, sW, b⟩ = .valueError ↔
      ref = [] := by
  constructor
  · intro h
    by_contra hne
    have hrlen : ¬(ref.length = 0) := by
      intro hl
      exact hne (List.length_eq_zero.mp hl)
    rw [min_distance.align, if_neg hrlen] at h
    revert h
    cases min_distance.alignEdits ⟨ref, hyp, (insN : ℚ), dW, sW, b⟩ <;> simp
  · rintro rfl
    rfl

theorem C6_value_error_iff_empty_ref_witness :
    (1 ≤ 3 ∧
      (min_distance.align ⟨["a"], ["b"], ((3 : ℕ) : ℚ), 3, 4, false⟩ = .valueError ↔
        (["a"] : List String) = [])) ∧
    (1 ≤ 3 ∧
      (min_distance.align ⟨[], ["b"], ((3 : ℕ) : ℚ), 3, 4, false⟩ = .valueError ↔
        ([] : List String) = [])) :=
  ⟨⟨by decide, C6_value_error_iff_empty_ref ["a"] ["b"] 3 3 4 false (by decide)⟩,
   ⟨by decide, C6_value_error_iff_empty_ref [] ["b"] 3 3 4 false (by decide)⟩⟩

/-- C7: with a non-empty reference and an empty hypothesis, `align`
skips the matrix and backtrace (`zero_length`) and the edit sequence is
exactly one deletion per reference token, in reference order; the Score
Tuple has deletion count `|ref|` and zero match/sub/ins counts (summing
the fluent and disfluent sub-counts when modified weights are on). -/
theorem C7_empty_hyp_all_deletions (ref : List String) (iW dW sW : ℚ) (b : Bool)
    (href : ref ≠ []) :
    min_distance.alignEdits ⟨ref, [], iW, dW, sW, b⟩ =
      some (ref.map (fun w => ⟨"deletion", "d" ++ spaces w.length, w, stars w.length⟩)) ∧
    (∃ rep sc, min_distance.align ⟨ref, [], iW, dW, sW, b⟩ = .ok rep sc) ∧
    (∀ rep sc, min_distance.align ⟨ref, [], iW, dW, sW, b⟩ = .ok rep sc →
      sc.getD 2 0 + (if b then sc.getD 7 0 else 0) = ref.length ∧
      sc.getD 0 0 + (if b then sc.getD 5 0 else 0) = 0 ∧
      sc.getD 1 0 + (if b then sc.getD 6 0 else 0) = 0 ∧
      sc.getD 3 0 + (if b then sc.getD 8 0 else 0) = 0) := by
  have hrlen : ¬(ref.length = 0) := by
    intro hl
    exact href (List.length_eq_zero.mp hl)
  have hedits : min_distance.alignEdits ⟨ref, [], iW, dW, sW, b⟩ =
      some (ref.map (fun w => ⟨"deletion", "d" ++ spaces w.length, w, stars w.length⟩)) := rfl
  refine ⟨hedits, ?_, ?_⟩
  · rw [min_distance.align, if_neg hrlen, hedits]
    exact ⟨_, _, rfl⟩
  · intro rep sc h
    rw [min_distance.align, if_neg hrlen, hedits] at h
    injection h with _ hsc
    subst hsc
    set es := ref.map (fun w =>
      (⟨"deletion", "d" ++ spaces w.length, w, stars w.length⟩ : Edit)) with hes
    have htypes : es.map Edit.type = List.replicate ref.length "deletion" := by
      rw [hes, List.map_map]
      exact List.map_const' _ _
    have hpairs : es.map (fun op => (op.type, pyIsupper op.ref)) =
        ref.map (fun w => ("deletion", pyIsupper w)) := by
      rw [hes, List.map_map]
      rfl
    have hfst : (ref.map (fun w => ("deletion", pyIsupper w))).map Prod.fst =
        List.replicate ref.length "deletion" := by
      rw [List.map_map]
      exact List.map_const' _ _
    have hzero : ∀ t : String, ∀ bb : Bool, t ≠ "deletion" →
        (ref.map (fun w => ("deletion", pyIsupper w))).count (t, bb) = 0 := by
      intro t bb ht
      rw [List.count_eq_zero]
      intro hmem
      obtain ⟨w, _, hw⟩ := List.mem_map.mp hmem
      exact ht (congrArg Prod.fst hw).symm
    cases b
    · simp only [Bool.false_eq_true, if_false]
      simp only [total_score, htypes]
      simp [List.count_replicate]
    · simp only [if_true]
      simp only [region_score, hpairs]
      have hsplit := count_pairs_split (ref.map (fun w => ("deletion", pyIsupper w))) "deletion"
      rw [hfst, List.count_replicate] at hsplit
      simp only [List.take, List.drop, List.append_assoc, List.cons_append,
        List.nil_append, List.getD_cons_zero, List.getD_cons_succ]
      simp only [beq_self_eq_true, if_true] at hsplit
      refine ⟨by omega, ?_, ?_, ?_⟩
      · simp [hzero "match" false (by decide), hzero "match" true (by decide)]
      · simp [hzero "substitution" false (by decide),
          hzero "substitution" true (by decide)]
      · simp [hzero "insertion" false (by decide), hzero "insertion" true (by decide)]

theorem C7_empty_hyp_all_deletions_witness :
    min_distance.alignEdits ⟨["a", "B"], [], 3, 3, 4, true⟩ =
      some ((["a", "B"] : List String).map
        (fun w => ⟨"deletion", "d" ++ spaces w.length, w, stars w.length⟩)) ∧
    (∃ rep sc, min_distance.align ⟨["a", "B"], [], 3, 3, 4, true⟩ = .ok rep sc) ∧
    (∀ rep sc, min_distance.align ⟨["a", "B"], [], 3, 3, 4, true⟩ = .ok rep sc →
      sc.getD 2 0 + (if true then sc.getD 7 0 else 0) = (["a", "B"] : List String).length ∧
      sc.getD 0 0 + (if true then sc.getD 5 0 else 0) = 0 ∧
      sc.getD 1 0 + (if true then sc.getD 6 0 else 0) = 0 ∧
      sc.getD 3 0 + (if true then sc.getD 8 0 else 0) = 0) :=
  C7_empty_hyp_all_deletions ["a", "B"] 3 3 4 true (by decide)

/-- C3 counterexample: with modified weights disabled, `align` returns
a 6-element score list (the disfluent token count is appended even in
the unmodified mode), not the 5-element list the claim states. -/
theorem C3_counterexample :
    min_distance.align ⟨["a"], ["a"], 3, 3, 4, false⟩ =
      .ok "REF: \ta\nHYP: \ta\nEval: \t  \nScores: (#C #S #D #I) 1 0 0 0\n"
        [1, 0, 0, 0, 1, 0] ∧
    ([1, 0, 0, 0, 1, 0] : List ℕ).length ≠ 5 := by
  constructor
  · decide
  · decide

/-- C3 amended: with modified weights disabled (default weights), for a
non-empty reference, `align` returns the 6-element score list
`[match, sub, del, ins, |ref|, disfluent_token_count]` — the claim's
5-element layout plus the disfluent token count appended at the end. -/
theorem C3_score_tuple_unmodified (ref hyp : List String) (href : ref ≠ []) :
    ∃ es, min_distance.alignEdits ⟨ref, hyp, 3, 3, 4, false⟩ = some es ∧
      min_distance.align ⟨ref, hyp, 3, 3, 4, false⟩ =
        .ok (report false es (total_score es))
          [(es.map Edit.type).count "match", (es.map Edit.type).count "substitution",
            (es.map Edit.type).count "deletion", (es.map Edit.type).count "insertion",
            ref.length, (ref.filter (fun w => pyIsupper w)).length] := by
  have hrlen : ¬(ref.length = 0) := by
    intro hl
    exact href (List.length_eq_zero.mp hl)
  have hsome : ∃ es, min_distance.alignEdits ⟨ref, hyp, 3, 3, 4, false⟩ = some es := by
    by_cases hh : hyp.length = 0
    · exact ⟨_, by rw [min_distance.alignEdits, if_pos hh]⟩
    · obtain ⟨es, hbt, _⟩ :=
        min_distance.backtrace_run ⟨ref, hyp, 3, 3, 4, false⟩ rfl rfl (Or.inl rfl)
      exact ⟨es, by rw [min_distance.alignEdits, if_neg hh]; exact hbt⟩
  obtain ⟨es, hes⟩ := hsome
  refine ⟨es, hes, ?_⟩
  rw [min_distance.align, if_neg hrlen, hes]
  simp only [total_score]
  rfl

theorem C3_score_tuple_unmodified_witness :
    ∃ es, min_distance.alignEdits ⟨["a", "B"], ["a"], 3, 3, 4, false⟩ = some es ∧
      min_distance.align ⟨["a", "B"], ["a"], 3, 3, 4, false⟩ =
        .ok (report false es (total_score es))
          [(es.map Edit.type).count "match", (es.map Edit.type).count "substitution",
            (es.map Edit.type).count "deletion", (es.map Edit.type).count "insertion",
            (["a", "B"] : List String).length,
            ((["a", "B"] : List String).filter (fun w => pyIsupper w)).length] :=
  C3_score_tuple_unmodified ["a", "B"] ["a"] (by decide)

/-- C4 counterexample: `"RIGH-"` (from the bundled test corpus) is
disfluent-tagged by the code's predicate (Python `isupper`), although
not every character of it is an uppercase letter — refuting the claimed
"every character is an uppercase letter" characterization. -/
theorem C4_counterexample :
    pyIsupper "RIGH-" = true ∧
    ¬(∀ c ∈ "RIGH-".data, c.isUpper = true) := by
  constructor
  · decide
  · decide

/-- C4 amended: the disfluent-tagged predicate used by the Builder and
the Backtracer (through `smallValue`) and by the Scorer
(`region_score`/`align`, through `pyIsupper`) holds iff the token has
at least one cased character and every cased character is uppercase
(Python `str.isupper` semantics).  In particular tokens such as `RIGH-`
are disfluent-tagged, and a token with no cased (alphabetic) characters
is never disfluent-tagged. -/
theorem C4_disfluent_tag_characterization (w : String) :
    (smallValue true w = eps ↔
      ((∃ c ∈ w.data, pyCased c = true) ∧
        ∀ c ∈ w.data, pyCased c = true → c.isUpper = true)) ∧
    (smallValue true w = eps ↔ pyIsupper w = true) := by
  have hchar : pyIsupper w = true ↔
      ((∃ c ∈ w.data, pyCased c = true) ∧
        ∀ c ∈ w.data, pyCased c = true → c.isUpper = true) := by
    simp only [pyIsupper, Bool.and_eq_true, List.any_eq_true, List.all_eq_true]
    constructor
    · rintro ⟨⟨c, hc, hcased⟩, hall⟩
      refine ⟨⟨c, hc, hcased⟩, ?_⟩
      intro c' hc' hcased'
      have := hall c' hc'
      revert this
      simp [hcased']
    · rintro ⟨⟨c, hc, hcased⟩, hall⟩
      refine ⟨⟨c, hc, hcased⟩, ?_⟩
      intro c' hc'
      by_cases h : pyCased c' = true
      · simp [hall c' hc' h]
      · simp [Bool.not_eq_true] at h
        simp [h]
  have hsv : smallValue true w = eps ↔ pyIsupper w = true := by
    unfold smallValue
    rcases h : pyIsupper w with _ | _
    · simp only [h, Bool.false_and, if_false]
      constructor
      · intro h0
        exact absurd h0.symm (ne_of_gt eps_pos)
      · intro h1
        exact absurd h1 (by decide)
    · simp [h]
  exact ⟨hsv.trans hchar, hsv⟩

namespace min_distance

/-- If the first match rule's guard holds, the step taken is a match. -/
theorem btStep_of_rule1Guard (md : MinDistance) (rows : List (List ℚ)) (i j : ℤ)
    (h : rule1Guard md rows i j) :
    ∃ e st1 st2, btStep md rows i j = some (e, st1, st2) ∧ e.type = "match" := by
  unfold rule1Guard at h
  simp only [btStep]
  rw [if_pos h]
  exact ⟨_, _, _, rfl, rfl⟩

/-- The first match rule's guard is false at every non-terminal
boundary state (top row with `i = 0`, or column 0 with `j = 0`). -/
theorem rule1Guard_boundary_false (md : MinDistance) (hIns : md.ins_weight = 3)
    (hDel : md.del_weight = 3)
    (hreg : md.modified_weights = false ∨ md.ref.length ≤ 10000000)
    (i j : ℕ) (hi : i ≤ md.ref.length) (hj : j ≤ md.hyp.length)
    (hnz : ¬(i = 0 ∧ j = 0)) (hbd : i = 0 ∨ j = 0) :
    ¬ rule1Guard md (cost_matrix md) (i : ℤ) (j : ℤ) := by
  intro hguard
  obtain ⟨e, st1, st2, hstep, htype⟩ :=
    btStep_of_rule1Guard md (cost_matrix md) (i : ℤ) (j : ℤ) hguard
  rcases hbd with rfl | rfl
  · have hj1 : 1 ≤ j := by omega
    have h0 := btStep_row0 md hIns j hj1 hj
    rw [show ((0 : ℕ) : ℤ) = (0 : ℤ) by norm_num] at hstep
    rw [h0] at hstep
    injection hstep with hpair
    injection hpair with he _
    rw [← he] at htype
    simp at htype
  · have hi1 : 1 ≤ i := by omega
    have h0 := btStep_col0 md hDel hreg i hi1 hi
    rw [show ((0 : ℕ) : ℤ) = (0 : ℤ) by norm_num] at hstep
    rw [h0] at hstep
    injection hstep with hpair
    injection hpair with he _
    rw [← he] at htype
    simp at htype

/-- Every state the backtrace loop visits stays within
`0 ≤ i ≤ |ref|`, `0 ≤ j ≤ |hyp|`, and at every non-terminal visited
state the first match rule can only fire when `i ≥ 1` and `j ≥ 1`. -/
theorem btStates_bounds (md : MinDistance) (hIns : md.ins_weight = 3)
    (hDel : md.del_weight = 3)
    (hreg : md.modified_weights = false ∨ md.ref.length ≤ 10000000) :
    ∀ (fuel : ℕ) (i j : ℕ), i ≤ md.ref.length → j ≤ md.hyp.length →
      ∀ p ∈ btStates md (cost_matrix md) fuel (i : ℤ) (j : ℤ),
        (0 ≤ p.1 ∧ p.1 ≤ (md.ref.length : ℤ) ∧ 0 ≤ p.2 ∧ p.2 ≤ (md.hyp.length : ℤ)) ∧
        (¬(p.1 = 0 ∧ p.2 = 0) →
          rule1Guard md (cost_matrix md) p.1 p.2 → 1 ≤ p.1 ∧ 1 ≤ p.2) := by
  intro fuel
  induction fuel with
  | zero => intro i j _ _ p hp; simp [btStates] at hp
  | succ fuel ih =>
    intro i j hi hj p hp
    rw [btStates] at hp
    rcases List.mem_cons.mp hp with rfl | hp'
    · refine ⟨⟨by omega, by omega, by omega, by omega⟩, ?_⟩
      intro hnz hguard
      have hnz' : ¬(i = 0 ∧ j = 0) := by
        intro ⟨h1, h2⟩
        exact hnz ⟨by omega, by omega⟩
      rcases Nat.eq_zero_or_pos i with hi0 | hi1
      · exact absurd hguard
          (rule1Guard_boundary_false md hIns hDel hreg i j hi hj hnz' (Or.inl hi0))
      · rcases Nat.eq_zero_or_pos j with hj0 | hj1
        · exact absurd hguard
            (rule1Guard_boundary_false md hIns hDel hreg i j hi hj hnz' (Or.inr hj0))
        · exact ⟨by omega, by omega⟩
    · by_cases hterm : (i : ℤ) = 0 ∧ (j : ℤ) = 0
      · rw [if_pos hterm] at hp'
        simp at hp'
      · rw [if_neg hterm] at hp'
        have hnz : ¬(i = 0 ∧ j = 0) := by
          intro ⟨h1, h2⟩
          exact hterm ⟨by omega, by omega⟩
        obtain ⟨e, irem, jrem, hstep, hout⟩ :=
          btStep_total md hIns hDel hreg i j hi hj hnz
        rw [hstep] at hp'
        rcases hout with ⟨_, _, _, hir, hjr⟩ | ⟨_, _, hir, hjr⟩ | ⟨_, _, hir, hjr⟩
        · subst hir hjr
          exact ih (i - 1) (j - 1) (by omega) (by omega) p hp'
        · subst hir hjr
          exact ih (i - 1) j (by omega) hj p hp'
        · subst hir hjr
          exact ih i (j - 1) hi (by omega) p hp'

end min_distance

/-- C8 counterexample: on `ref = "a"`, `hyp = "b c"` the backtrace
visits the state `(i, j) = (0, 1)`, where the loop body evaluates the
epsilon of `self.ref[i-1] = self.ref[-1]` — a negative Python index
(wrapping to the last reference token), so not every token access is
within bounds without negative indexing. -/
theorem C8_counterexample :
    min_distance.backtraceStates ⟨["a"], ["b", "c"], 3, 3, 4, false⟩ =
      [(1, 2), (0, 1), (0, 0)] ∧
    ((0 : ℤ), (1 : ℤ)) ∈
      min_distance.backtraceStates ⟨["a"], ["b", "c"], 3, 3, 4, false⟩ ∧
    ((0 : ℤ) - 1 < 0 ∧ pyNth (["a"] : List String) ((0 : ℤ) - 1) "" = "a") := by
  refine ⟨by decide, by decide, by decide, by decide⟩

/-- C8 amended: for default weights (and, when modified weights are on,
references within the `ε ≪ 1` regime), every state `(i, j)` the
backtrace visits satisfies `0 ≤ i ≤ |ref|` and `0 ≤ j ≤ |hyp|` (so
every matrix access `rows[i][j]` is in bounds), and at every
non-terminal visited state the first match rule's guard can hold only
when `i ≥ 1` and `j ≥ 1`.  The one remaining out-of-bounds read is the
epsilon lookup `ref[i-1]` at states with `i = 0`, which Python resolves
by negative indexing to the last reference token but whose value never
affects which rule fires. -/
theorem C8_states_in_bounds (ref hyp : List String) (b : Bool)
    (href : ref ≠ []) (hreg : b = false ∨ ref.length ≤ 10000000) :
    ∀ p ∈ min_distance.backtraceStates ⟨ref, hyp, 3, 3, 4, b⟩,
      (0 ≤ p.1 ∧ p.1 ≤ (ref.length : ℤ) ∧ 0 ≤ p.2 ∧ p.2 ≤ (hyp.length : ℤ)) ∧
      (¬(p.1 = 0 ∧ p.2 = 0) →
        min_distance.rule1Guard ⟨ref, hyp, 3, 3, 4, b⟩
          (min_distance.cost_matrix ⟨ref, hyp, 3, 3, 4, b⟩) p.1 p.2 →
        1 ≤ p.1 ∧ 1 ≤ p.2) := by
  intro p hp
  exact min_distance.btStates_bounds ⟨ref, hyp, 3, 3, 4, b⟩ rfl rfl hreg
    (ref.length + hyp.length + 1) ref.length hyp.length (le_refl _) (le_refl _) p hp

theorem C8_states_in_bounds_witness :
    (0 ≤ ((1 : ℤ), (1 : ℤ)).1 ∧ ((1 : ℤ), (1 : ℤ)).1 ≤ ((["a"] : List String).length : ℤ) ∧
      0 ≤ ((1 : ℤ), (1 : ℤ)).2 ∧ ((1 : ℤ), (1 : ℤ)).2 ≤ ((["b"] : List String).length : ℤ)) ∧
    (¬(((1 : ℤ), (1 : ℤ)).1 = 0 ∧ ((1 : ℤ), (1 : ℤ)).2 = 0) →
      min_distance.rule1Guard ⟨["a"], ["b"], 3, 3, 4, false⟩
        (min_distance.cost_matrix ⟨["a"], ["b"], 3, 3, 4, false⟩)
        ((1 : ℤ), (1 : ℤ)).1 ((1 : ℤ), (1 : ℤ)).2 →
      1 ≤ ((1 : ℤ), (1 : ℤ)).1 ∧ 1 ≤ ((1 : ℤ), (1 : ℤ)).2) :=
  C8_states_in_bounds ["a"] ["b"] false (by decide) (Or.inl rfl)
    ((1 : ℤ), (1 : ℤ)) (by decide)

/-! ## Lemmas: ASCII case functions -/

theorem char_toNat_ofNat {n : ℕ} (h : n < 55296) : (Char.ofNat n).toNat = n := by
  unfold Char.ofNat
  rw [dif_pos (Or.inl (by omega))]
  rfl

theorem char_isUpper_iff (c : Char) : c.isUpper = true ↔ 65 ≤ c.toNat ∧ c.toNat ≤ 90 := by
  simp only [Char.isUpper, Bool.and_eq_true, decide_eq_true_eq, UInt32.le_def,
    BitVec.le_def]
  exact Iff.rfl

theorem char_toLower_eq (c : Char) :
    c.toLower = if 65 ≤ c.toNat ∧ c.toNat ≤ 90 then Char.ofNat (c.toNat + 32) else c := rfl

theorem char_toUpper_eq (c : Char) :
    c.toUpper = if 97 ≤ c.toNat ∧ c.toNat ≤ 122 then Char.ofNat (c.toNat - 32) else c := rfl

theorem char_isUpper_false_of_toLower_fix {c : Char} (h : c.toLower = c) :
    c.isUpper = false := by
  by_contra hne
  have hU : c.isUpper = true := by
    cases hval : c.isUpper
    · exact absurd hval hne
    · rfl
  obtain ⟨h1, h2⟩ := (char_isUpper_iff c).mp hU
  rw [char_toLower_eq, if_pos ⟨h1, h2⟩] at h
  have := congrArg Char.toNat h
  rw [char_toNat_ofNat (by omega)] at this
  omega

theorem char_toUpper_toUpper (c : Char) : c.toUpper.toUpper = c.toUpper := by
  by_cases h : 97 ≤ c.toNat ∧ c.toNat ≤ 122
  · have h1 : c.toUpper = Char.ofNat (c.toNat - 32) := by rw [char_toUpper_eq, if_pos h]
    have h2 : (Char.ofNat (c.toNat - 32)).toNat = c.toNat - 32 :=
      char_toNat_ofNat (by omega)
    rw [h1, char_toUpper_eq, h2, if_neg (by omega)]
  · have h1 : c.toUpper = c := by rw [char_toUpper_eq, if_neg h]
    rw [h1, h1]

theorem pyUpper_pyUpper (s : String) : pyUpper (pyUpper s) = pyUpper s := by
  simp only [pyUpper, List.map_map]
  congr 1
  apply List.map_congr_left
  intro c _
  exact char_toUpper_toUpper c

theorem map_fix_forall {α : Type} (f : α → α) :
    ∀ (l : List α), l.map f = l → ∀ x ∈ l, f x = x := by
  intro l
  induction l with
  | nil => simp
  | cons a l ih =>
    intro h x hx
    rw [List.map_cons, List.cons.injEq] at h
    rcases List.mem_cons.mp hx with rfl | hx'
    · exact h.1
    · exact ih h.2 x hx'

theorem pyIsupper_false_of_pyLower_fix {w : String} (h : pyLower w = w) :
    pyIsupper w = false := by
  have hdata : w.data.map Char.toLower = w.data := congrArg String.data h
  have hfix : ∀ c ∈ w.data, c.toLower = c := map_fix_forall _ _ hdata
  cases hany : w.data.any pyCased
  · simp [pyIsupper, hany]
  · obtain ⟨c, hc, hcased⟩ := List.any_eq_true.mp hany
    have hup : c.isUpper = false := char_isUpper_false_of_toLower_fix (hfix c hc)
    have : w.data.all (fun c => !pyCased c || c.isUpper) = false := by
      rw [List.all_eq_false]
      exact ⟨c, hc, by simp [hcased, hup]⟩
    simp [pyIsupper, this]

namespace min_distance

theorem getD_mem_of_lt {l : List String} {k : ℕ} (hk : k < l.length) :
    l.getD k "" ∈ l := by
  rw [List.getD_eq_getElem _ _ hk]
  exact List.getElem_mem hk

/-- With default weights and no epsilon on any reference row, all
matrix entries are nonnegative. -/
theorem entry_nonneg_of_sv_zero (md : MinDistance) (hIns : md.ins_weight = 3)
    (hDel : md.del_weight = 3) (hSub : md.sub_weight = 4)
    (hsv : ∀ k < md.ref.length,
      smallValue md.modified_weights (md.ref.getD k "") = 0) :
    ∀ i, i ≤ md.ref.length → ∀ j, j ≤ md.hyp.length → 0 ≤ entry md i j := by
  intro i
  induction i with
  | zero =>
    intro _ j hj
    rw [entry_row0 md j hj, hIns]
    positivity
  | succ k ihk =>
    intro hk1 j
    induction j with
    | zero =>
      intro _
      rw [entry_col0 md k hk1, hsv k (by omega), hDel]
      positivity
    | succ l ihl =>
      intro hl1
      rw [entry_rec md k l hk1 hl1, hsv k (by omega), hIns, hDel, hSub]
      have h1 := ihl (by omega)
      have h2 := ihk (by omega) (l + 1) hl1
      have h3 := ihk (by omega) l (by omega)
      by_cases hc : pyLower (md.ref.getD k "") = md.hyp.getD l ""
      · rw [if_pos hc]
        refine le_min (by linarith) (le_min (by linarith) (by linarith))
      · rw [if_neg hc]
        refine le_min (by linarith) (le_min (by linarith) (by linarith))

/-- Aligning a lowercase-fixed sentence against itself: every diagonal
entry of the cost matrix is `0`. -/
theorem entry_diag_zero (s : List String) (b : Bool)
    (hlc : ∀ w ∈ s, pyLower w = w) :
    ∀ k, k ≤ s.length → entry ⟨s, s, 3, 3, 4, b⟩ k k = 0 := by
  have hsv : ∀ k < s.length,
      smallValue b (s.getD k "") = 0 := by
    intro k hk
    exact smallValue_of_not_isupper _
      (pyIsupper_false_of_pyLower_fix (hlc _ (getD_mem_of_lt hk)))
  intro k
  induction k with
  | zero =>
    intro _
    have := entry_row0 ⟨s, s, 3, 3, 4, b⟩ 0 (Nat.zero_le _)
    simpa using this
  | succ k ih =>
    intro hk1
    have hrec := entry_rec ⟨s, s, 3, 3, 4, b⟩ k k hk1 hk1
    have hc : pyLower ((⟨s, s, 3, 3, 4, b⟩ : MinDistance).ref.getD k "") =
        (⟨s, s, 3, 3, 4, b⟩ : MinDistance).hyp.getD k "" :=
      hlc _ (getD_mem_of_lt (by omega))
    rw [hrec, hsv k (by omega), if_pos hc, ih (by omega)]
    have h1 := entry_nonneg_of_sv_zero ⟨s, s, 3, 3, 4, b⟩ rfl rfl rfl hsv
      (k + 1) hk1 k (by dsimp only; omega)
    have h2 := entry_nonneg_of_sv_zero ⟨s, s, 3, 3, 4, b⟩ rfl rfl rfl hsv
      k (by dsimp only; omega) (k + 1) (by dsimp only; omega)
    dsimp only at h1 h2 ⊢
    norm_num
    rw [min_eq_right (by linarith :
      (0:ℚ) ≤ entry ⟨s, s, 3, 3, 4, b⟩ k (k + 1) + 3)]
    exact min_eq_right (by linarith)

end min_distance

namespace min_distance

theorem btStep_diag (s : List String) (b : Bool)
    (hlc : ∀ w ∈ s, pyLower w = w) (k : ℕ) (hk1 : k + 1 ≤ s.length) :
    btStep ⟨s, s, 3, 3, 4, b⟩ (cost_matrix ⟨s, s, 3, 3, 4, b⟩)
        ((k + 1 : ℕ) : ℤ) ((k + 1 : ℕ) : ℤ) =
      some (⟨"match", spaces ((s.getD k "").length + 1), s.getD k "", s.getD k ""⟩,
        (k : ℤ), (k : ℤ)) := by
  have hsv : ∀ kk, kk < s.length → smallValue b (s.getD kk "") = 0 := by
    intro kk hkk
    exact smallValue_of_not_isupper _
      (pyIsupper_false_of_pyLower_fix (hlc _ (getD_mem_of_lt hkk)))
  have hIz : ((k + 1 : ℕ) : ℤ) ≠ 0 := by omega
  have hIsub : ((k + 1 : ℕ) : ℤ) - 1 = (k : ℤ) := by push_cast; ring
  set md : MinDistance := ⟨s, s, 3, 3, 4, b⟩ with hmd
  have eP : pyNth (pyNth (cost_matrix md) ((k + 1 : ℕ) : ℤ) []) ((k + 1 : ℕ) : ℤ) 0 =
      entry md (k + 1) (k + 1) := by
    rw [pyNth_natCast, pyNth_natCast]; rfl
  have eD : pyNth (pyNth (cost_matrix md) (((k + 1 : ℕ) : ℤ) - 1) [])
      (((k + 1 : ℕ) : ℤ) - 1) 0 = entry md k k := by
    rw [hIsub, pyNth_natCast, pyNth_natCast]; rfl
  have eU : pyNth (pyNth (cost_matrix md) (((k + 1 : ℕ) : ℤ) - 1) [])
      ((k + 1 : ℕ) : ℤ) 0 = entry md k (k + 1) := by
    rw [hIsub, pyNth_natCast, pyNth_natCast]; rfl
  have eL : pyNth (pyNth (cost_matrix md) ((k + 1 : ℕ) : ℤ) [])
      (((k + 1 : ℕ) : ℤ) - 1) 0 = entry md (k + 1) k := by
    rw [hIsub, pyNth_natCast, pyNth_natCast]; rfl
  have hreftok : pyNth md.ref (((k + 1 : ℕ) : ℤ) - 1) "" = s.getD k "" := by
    rw [hIsub, pyNth_natCast]
  have hIfalse : (((k + 1 : ℕ) : ℤ) = 0) = False := eq_false hIz
  have hguard : entry md (k + 1) (k + 1) =
      pyMin [entry md k k, entry md k (k + 1), entry md (k + 1) k] +
        smallValue b (s.getD k "") := by
    have hz := entry_diag_zero s b hlc
    have h1 := entry_nonneg_of_sv_zero md rfl rfl rfl hsv k
      (by show k ≤ s.length; omega) (k + 1) (by show k + 1 ≤ s.length; omega)
    have h2 := entry_nonneg_of_sv_zero md rfl rfl rfl hsv (k + 1)
      (by show k + 1 ≤ s.length; omega) k (by show k ≤ s.length; omega)
    rw [hz (k + 1) hk1, hz k (by omega), hsv k (by omega)]
    show (0 : ℚ) = [entry md k (k + 1), entry md (k + 1) k].foldl min 0 + 0
    rw [List.foldl_cons, List.foldl_cons, List.foldl_nil,
      min_eq_left h1, min_eq_left h2]
    ring
  simp only [btStep, ne_eq, hIfalse, not_false_eq_true, and_self, if_true,
    hreftok, eP, eD, eU, eL, List.singleton_append, List.cons_append,
    List.nil_append]
  rw [if_pos hguard]
  rw [hIsub]

theorem btLoop_diag (s : List String) (b : Bool)
    (hlc : ∀ w ∈ s, pyLower w = w) :
    ∀ (fuel : ℕ) (k : ℕ) (acc : List Edit), k ≤ s.length → k < fuel →
      btLoop ⟨s, s, 3, 3, 4, b⟩ (cost_matrix ⟨s, s, 3, 3, 4, b⟩) fuel
          (k : ℤ) (k : ℤ) acc =
        some (acc ++ ((s.take k).map
          (fun w => (⟨"match", spaces (w.length + 1), w, w⟩ : Edit))).reverse) := by
  intro fuel
  induction fuel with
  | zero => intro k acc _ hf; omega
  | succ fuel ih =>
    intro k acc hk hf
    cases k with
    | zero =>
      rw [btLoop]
      simp
    | succ k =>
      rw [btLoop, if_neg (by omega), btStep_diag s b hlc k hk]
      dsimp only
      rw [ih k (acc ++ [(⟨"match", spaces ((s.getD k "").length + 1),
        s.getD k "", s.getD k ""⟩ : Edit)]) (by omega) (by omega)]
      congr 1
      have htake : s.take (k + 1) = s.take k ++ [s.getD k ""] := by
        rw [List.take_succ, List.getD_eq_getElem _ _ (by omega : k < s.length),
          List.getElem?_eq_getElem (by omega : k < s.length)]
        rfl
      rw [htake, List.map_append, List.reverse_append]
      simp

end min_distance

/-- C5 counterexample: aligning `ref = hyp = "AB"` against itself
(default weights) yields a substitution, not a match: only the
reference token is lowercased before comparison, so `"ab" != "AB"`. -/
theorem C5_counterexample :
    min_distance.backtrace ⟨["AB"], ["AB"], 3, 3, 4, false⟩ =
      some [⟨"substitution", "s  ", "AB", "AB"⟩] ∧
    (([⟨"substitution", "s  ", "AB", "AB"⟩] : List Edit).map
      Edit.type).count "substitution" ≠ 0 := by
  constructor
  · decide
  · decide

/-- C5 amended: for every non-empty sentence whose tokens are unchanged
by lowercasing (no uppercase letters), aligning the sentence against
itself with default weights (either flag) yields an Edit Sequence of
exactly one match per token, with zero substitutions, deletions and
insertions. -/
theorem C5_identity_matches (s : List String) (b : Bool) (hne : s ≠ [])
    (hlc : ∀ w ∈ s, pyLower w = w) :
    min_distance.alignEdits ⟨s, s, 3, 3, 4, b⟩ =
      some (s.map (fun w => ⟨"match", spaces (w.length + 1), w, w⟩)) ∧
    ((s.map (fun w => (⟨"match", spaces (w.length + 1), w, w⟩ : Edit))).map
        Edit.type).count "match" = s.length ∧
    ((s.map (fun w => (⟨"match", spaces (w.length + 1), w, w⟩ : Edit))).map
        Edit.type).count "substitution" = 0 ∧
    ((s.map (fun w => (⟨"match", spaces (w.length + 1), w, w⟩ : Edit))).map
        Edit.type).count "deletion" = 0 ∧
    ((s.map (fun w => (⟨"match", spaces (w.length + 1), w, w⟩ : Edit))).map
        Edit.type).count "insertion" = 0 := by
  have hlen : ¬(s.length = 0) := by
    intro h
    exact hne (List.length_eq_zero.mp h)
  have htypes : (s.map (fun w => (⟨"match", spaces (w.length + 1), w, w⟩ : Edit))).map
      Edit.type = List.replicate s.length "match" := by
    rw [List.map_map]
    exact List.map_const' _ _
  refine ⟨?_, ?_, ?_, ?_, ?_⟩
  · rw [min_distance.alignEdits, if_neg hlen, min_distance.backtrace,
      min_distance.btLoop_diag s b hlc (s.length + s.length + 1) s.length []
        (le_refl _) (by omega)]
    simp [List.take_length]
  all_goals rw [htypes] <;> simp [List.count_replicate]

theorem C5_identity_matches_witness :
    min_distance.alignEdits ⟨["a", "b"], ["a", "b"], 3, 3, 4, true⟩ =
      some ((["a", "b"] : List String).map
        (fun w => ⟨"match", spaces (w.length + 1), w, w⟩)) ∧
    (((["a", "b"] : List String).map
        (fun w => (⟨"match", spaces (w.length + 1), w, w⟩ : Edit))).map
        Edit.type).count "match" = (["a", "b"] : List String).length ∧
    (((["a", "b"] : List String).map
        (fun w => (⟨"match", spaces (w.length + 1), w, w⟩ : Edit))).map
        Edit.type).count "substitution" = 0 ∧
    (((["a", "b"] : List String).map
        (fun w => (⟨"match", spaces (w.length + 1), w, w⟩ : Edit))).map
        Edit.type).count "deletion" = 0 ∧
    (((["a", "b"] : List String).map
        (fun w => (⟨"match", spaces (w.length + 1), w, w⟩ : Edit))).map
        Edit.type).count "insertion" = 0 :=
  C5_identity_matches ["a", "b"] true (by decide) (by decide)

/-! ## Lemmas: the classic Levenshtein distance -/

theorem lev_nil_left (ys : List String) : lev [] ys = ys.length := by
  cases ys <;> simp [lev]

theorem lev_nil_right (xs : List String) : lev xs [] = xs.length := by
  cases xs <;> simp [lev]

theorem lev_cons_cons (x y : String) (xs ys : List String) :
    lev (x :: xs) (y :: ys) =
      min (lev xs (y :: ys) + 1)
        (min (lev (x :: xs) ys + 1) (lev xs ys + (if x = y then 0 else 1))) := by
  simp [lev]

theorem aln_lev : ∀ xs ys : List String, Aln xs ys (lev xs ys) := by
  intro xs
  induction xs with
  | nil =>
    intro ys
    induction ys with
    | nil => simpa [lev_nil_left] using Aln.nil
    | cons y ys ihy =>
      rw [lev_nil_left] at ihy ⊢
      exact Aln.insert y ihy
  | cons x xs ihx =>
    intro ys
    induction ys with
    | nil =>
      have h := ihx []
      rw [lev_nil_right] at h ⊢
      exact Aln.delete x h
    | cons y ys ihy =>
      rw [lev_cons_cons]
      rcases min_cases (lev xs (y :: ys) + 1)
        (min (lev (x :: xs) ys + 1) (lev xs ys + (if x = y then 0 else 1))) with
        ⟨hmin, _⟩ | ⟨hmin, _⟩
      · rw [hmin]
        exact Aln.delete x (ihx (y :: ys))
      · rw [hmin]
        rcases min_cases (lev (x :: xs) ys + 1)
          (lev xs ys + (if x = y then 0 else 1)) with ⟨hmin2, _⟩ | ⟨hmin2, _⟩
        · rw [hmin2]
          exact Aln.insert y ihy
        · rw [hmin2]
          by_cases hxy : x = y
          · subst hxy
            rw [if_pos rfl]
            simpa using Aln.mtch x (ihx ys)
          · rw [if_neg hxy]
            exact Aln.subst x y (ihx ys)

theorem lev_le_one_del (x : String) (xs ys : List String) :
    lev (x :: xs) ys ≤ lev xs ys + 1 := by
  cases ys with
  | nil => rw [lev_nil_right, lev_nil_right]; simp
  | cons y ys =>
    rw [lev_cons_cons]
    exact le_trans (min_le_left _ _) (le_refl _)

theorem lev_le_one_ins (y : String) (xs ys : List String) :
    lev xs (y :: ys) ≤ lev xs ys + 1 := by
  cases xs with
  | nil => rw [lev_nil_left, lev_nil_left]; simp
  | cons x xs =>
    rw [lev_cons_cons]
    exact le_trans (min_le_right _ _) (min_le_left _ _)

theorem lev_le_subst (x y : String) (xs ys : List String) :
    lev (x :: xs) (y :: ys) ≤ lev xs ys + 1 := by
  rw [lev_cons_cons]
  refine le_trans (min_le_right _ _) (le_trans (min_le_right _ _) ?_)
  split <;> omega

theorem lev_le_match (x : String) (xs ys : List String) :
    lev (x :: xs) (x :: ys) ≤ lev xs ys := by
  rw [lev_cons_cons]
  refine le_trans (min_le_right _ _) (le_trans (min_le_right _ _) ?_)
  rw [if_pos rfl]
  simp

theorem lev_le_of_aln : ∀ {xs ys : List String} {n : ℕ}, Aln xs ys n →
    lev xs ys ≤ n := by
  intro xs ys n h
  induction h with
  | nil => simp [lev_nil_left]
  | mtch x _ ih => exact le_trans (lev_le_match _ _ _) ih
  | subst x y _ ih => exact le_trans (lev_le_subst _ _ _ _) (by omega)
  | delete x _ ih => exact le_trans (lev_le_one_del _ _ _) (by omega)
  | insert y _ ih => exact le_trans (lev_le_one_ins _ _ _) (by omega)

theorem aln_snoc_mtch : ∀ {xs ys : List String} {n : ℕ}, Aln xs ys n →
    ∀ z, Aln (xs ++ [z]) (ys ++ [z]) n := by
  intro xs ys n h
  induction h with
  | nil => intro z; exact Aln.mtch z Aln.nil
  | mtch x _ ih => intro z; exact Aln.mtch x (ih z)
  | subst x y _ ih => intro z; exact Aln.subst x y (ih z)
  | delete x _ ih => intro z; exact Aln.delete x (ih z)
  | insert y _ ih => intro z; exact Aln.insert y (ih z)

theorem aln_snoc_subst : ∀ {xs ys : List String} {n : ℕ}, Aln xs ys n →
    ∀ z w, Aln (xs ++ [z]) (ys ++ [w]) (n + 1) := by
  intro xs ys n h
  induction h with
  | nil => intro z w; exact Aln.subst z w Aln.nil
  | mtch x _ ih => intro z w; exact Aln.mtch x (ih z w)
  | subst x y _ ih => intro z w; exact Aln.subst x y (ih z w)
  | delete x _ ih => intro z w; exact Aln.delete x (ih z w)
  | insert y _ ih => intro z w; exact Aln.insert y (ih z w)

theorem aln_snoc_del : ∀ {xs ys : List String} {n : ℕ}, Aln xs ys n →
    ∀ z, Aln (xs ++ [z]) ys (n + 1) := by
  intro xs ys n h
  induction h with
  | nil => intro z; exact Aln.delete z Aln.nil
  | mtch x _ ih => intro z; exact Aln.mtch x (ih z)
  | subst x y _ ih => intro z; exact Aln.subst x y (ih z)
  | delete x _ ih => intro z; exact Aln.delete x (ih z)
  | insert y _ ih => intro z; exact Aln.insert y (ih z)

theorem aln_snoc_ins : ∀ {xs ys : List String} {n : ℕ}, Aln xs ys n →
    ∀ w, Aln xs (ys ++ [w]) (n + 1) := by
  intro xs ys n h
  induction h with
  | nil => intro w; exact Aln.insert w Aln.nil
  | mtch x _ ih => intro w; exact Aln.mtch x (ih w)
  | subst x y _ ih => intro w; exact Aln.subst x y (ih w)
  | delete x _ ih => intro w; exact Aln.delete x (ih w)
  | insert y _ ih => intro w; exact Aln.insert y (ih w)

theorem aln_reverse : ∀ {xs ys : List String} {n : ℕ}, Aln xs ys n →
    Aln xs.reverse ys.reverse n := by
  intro xs ys n h
  induction h with
  | nil => exact Aln.nil
  | mtch x _ ih => simpa [List.reverse_cons] using aln_snoc_mtch ih x
  | subst x y _ ih => simpa [List.reverse_cons] using aln_snoc_subst ih x y
  | delete x _ ih => simpa [List.reverse_cons] using aln_snoc_del ih x
  | insert y _ ih => simpa [List.reverse_cons] using aln_snoc_ins ih y

/-- The Levenshtein distance is invariant under reversing both
sequences. -/
theorem lev_reverse (xs ys : List String) :
    lev xs.reverse ys.reverse = lev xs ys := by
  refine le_antisymm (lev_le_of_aln (aln_reverse (aln_lev xs ys))) ?_
  have h := lev_le_of_aln (aln_reverse (aln_lev xs.reverse ys.reverse))
  simpa using h

theorem reverse_take_succ (l : List String) (k : ℕ) (hk : k < l.length) :
    (l.take (k + 1)).reverse = l.getD k "" :: (l.take k).reverse := by
  rw [List.take_succ, List.getD_eq_getElem _ _ hk, List.getElem?_eq_getElem hk]
  simp

theorem getD_map_pyLower (l : List String) (k : ℕ) (hk : k < l.length) :
    (l.map pyLower).getD k "" = pyLower (l.getD k "") := by
  rw [List.getD_eq_getElem _ _ (by simpa using hk), List.getD_eq_getElem _ _ hk]
  simp

/-- With unit weights and modified weights off, every cost-matrix entry
is the classic Levenshtein distance between the (reversed) lowercased
reference prefix and the (reversed) hypothesis prefix. -/
theorem entry_unit_lev (ref hyp : List String) :
    ∀ i, i ≤ ref.length → ∀ j, j ≤ hyp.length →
      min_distance.entry ⟨ref, hyp, 1, 1, 1, false⟩ i j =
        (lev (((ref.map pyLower).take i).reverse) ((hyp.take j).reverse) : ℚ) := by
  intro i
  induction i with
  | zero =>
    intro _ j hj
    rw [min_distance.entry_row0 ⟨ref, hyp, 1, 1, 1, false⟩ j hj]
    simp only [List.take_zero, List.reverse_nil, lev_nil_left, List.length_reverse,
      List.length_take]
    rw [min_eq_left hj]
    push_cast
    ring
  | succ k ihk =>
    intro hk1 j
    induction j with
    | zero =>
      intro _
      rw [min_distance.entry_col0 ⟨ref, hyp, 1, 1, 1, false⟩ k hk1]
      simp only [smallValue_false, List.take_zero, List.reverse_nil, lev_nil_right,
        List.length_reverse, List.length_take]
      rw [min_eq_left (by simpa using hk1)]
      push_cast
      ring
    | succ l ihl =>
      intro hl1
      rw [min_distance.entry_rec ⟨ref, hyp, 1, 1, 1, false⟩ k l hk1 hl1]
      simp only [smallValue_false]
      rw [ihl (by omega), ihk (by omega) (l + 1) hl1, ihk (by omega) l (by omega)]
      rw [reverse_take_succ (ref.map pyLower) k (by simpa using hk1),
        reverse_take_succ hyp l (by omega)]
      rw [lev_cons_cons, getD_map_pyLower ref k (by omega)]
      by_cases hc : pyLower (ref.getD k "") = hyp.getD l ""
      · rw [if_pos hc, if_pos hc]
        push_cast [Nat.cast_min]
        rw [min_left_comm]
        norm_num
      · rw [if_neg hc, if_neg hc]
        push_cast [Nat.cast_min]
        rw [min_left_comm]
        norm_num

/-- C2: with insertion = deletion = substitution = 1 and modified
weights disabled, the bottom-right cell `cost_matrix()[|ref|][|hyp|]`
is exactly the classic unweighted Levenshtein distance between the
lowercased reference token sequence and the hypothesis token
sequence. -/
theorem C2_unit_weights_levenshtein (ref hyp : List String) :
    ((min_distance.cost_matrix ⟨ref, hyp, 1, 1, 1, false⟩).getD ref.length []).getD
        hyp.length 0 =
      (lev (ref.map pyLower) hyp : ℚ) := by
  show min_distance.entry ⟨ref, hyp, 1, 1, 1, false⟩ ref.length hyp.length = _
  rw [entry_unit_lev ref hyp ref.length (le_refl _) hyp.length (le_refl _)]
  have h1 : (ref.map pyLower).take ref.length = ref.map pyLower :=
    List.take_of_length_le (by simp)
  have h2 : hyp.take hyp.length = hyp := List.take_of_length_le (le_refl _)
  rw [h1, h2, lev_reverse]

/-! ## Lemmas: the two modules are equivalent (C10) -/

theorem pyUpper_spaces (n : ℕ) : pyUpper (spaces n) = spaces n := by
  apply String.ext
  simp only [pyUpper, spaces, List.map_replicate]
  rfl

theorem pyLjust_empty (n : ℕ) : pyLjust "" (n + 1) ' ' = spaces (n + 1) := by
  apply String.ext
  simp [pyLjust, spaces, String.data_append]

theorem pyUpper_letter_spaces (n : ℕ) :
    (pyUpper ("s" ++ spaces n) = pyLjust "S" (n + 1) ' ') ∧
    (pyUpper ("d" ++ spaces n) = pyLjust "D" (n + 1) ' ') ∧
    (pyUpper ("i" ++ spaces n) = pyLjust "I" (n + 1) ' ') := by
  refine ⟨?_, ?_, ?_⟩ <;>
    (apply String.ext
     simp only [pyUpper, pyLjust, spaces, String.data_append, List.map_append,
       List.map_replicate]
     rfl)

theorem capEval_match (r h : String) :
    capEval ⟨"match", spaces (r.length + 1), r, h⟩ =
      ⟨"match", pyLjust "" (r.length + 1) ' ', r, h⟩ := by
  simp [capEval, pyUpper_spaces, pyLjust_empty]

theorem capEval_sub (ps ph : String) (n : ℕ) :
    capEval ⟨"substitution", "s" ++ spaces n, ps, ph⟩ =
      ⟨"substitution", pyLjust "S" (n + 1) ' ', ps, ph⟩ := by
  simp [capEval, (pyUpper_letter_spaces n).1]

theorem capEval_del (r h : String) (n : ℕ) :
    capEval ⟨"deletion", "d" ++ spaces n, r, h⟩ =
      ⟨"deletion", pyLjust "D" (n + 1) ' ', r, h⟩ := by
  simp [capEval, (pyUpper_letter_spaces n).2.1]

theorem capEval_ins (r h : String) (n : ℕ) :
    capEval ⟨"insertion", "i" ++ spaces n, r, h⟩ =
      ⟨"insertion", pyLjust "I" (n + 1) ' ', r, h⟩ := by
  simp [capEval, (pyUpper_letter_spaces n).2.2]

namespace aligner

theorem cost_matrix_toMD (a : MinDistance) :
    cost_matrix a = min_distance.cost_matrix (toMD a) := rfl

set_option maxHeartbeats 1000000 in
theorem btStep_cap (a : MinDistance) (rows : List (List ℚ)) (i j : ℤ) :
    btStep a rows i j =
      (min_distance.btStep (toMD a) rows i j).map
        (fun p => (capEval p.1, p.2)) := by
  simp only [btStep, min_distance.btStep, toMD]
  split_ifs <;>
    simp only [Option.map_some, Option.map_none, Option.map_some', Option.map_none'] <;>
    first
      | rfl
      | rw [capEval_match]
      | rw [capEval_sub]
      | rw [capEval_del]
      | rw [capEval_ins]

end aligner

namespace aligner

theorem btLoop_cap (a : MinDistance) (rows : List (List ℚ)) :
    ∀ (fuel : ℕ) (i j : ℤ) (acc : List Edit),
      btLoop a rows fuel i j (acc.map capEval) =
        (min_distance.btLoop (toMD a) rows fuel i j acc).map
          (List.map capEval) := by
  intro fuel
  induction fuel with
  | zero => intro i j acc; rfl
  | succ fuel ih =>
    intro i j acc
    rw [btLoop, min_distance.btLoop]
    by_cases hterm : i = 0 ∧ j = 0
    · rw [if_pos hterm, if_pos hterm]
      rfl
    · rw [if_neg hterm, if_neg hterm, btStep_cap]
      cases min_distance.btStep (toMD a) rows i j with
      | none => rfl
      | some p =>
        obtain ⟨e, i', j'⟩ := p
        simp only [Option.map_some']
        have hmap : acc.map capEval ++ [capEval e] = (acc ++ [e]).map capEval := by
          simp
        rw [hmap, ih]

theorem zero_length_cap (a : MinDistance) :
    zero_length a = (min_distance.zero_length (toMD a)).map capEval := by
  rw [zero_length, min_distance.zero_length, toMD, List.map_map]
  apply List.map_congr_left
  intro w _
  exact (capEval_del w (stars w.length) w.length).symm

theorem backtrace_cap (a : MinDistance) :
    backtrace a = (min_distance.backtrace (toMD a)).map (List.map capEval) := by
  rw [backtrace, min_distance.backtrace]
  have h := btLoop_cap a (min_distance.cost_matrix (toMD a))
    (a.ref.length + a.hyp.length + 1) (a.ref.length : ℤ) (a.hyp.length : ℤ) []
  simp only [List.map_nil] at h
  rw [cost_matrix_toMD, h, Option.map_map, Option.map_map]
  apply congrArg (fun f => Option.map f _)
  funext es
  simp [Function.comp, List.map_reverse]

theorem alignEdits_cap (a : MinDistance) :
    alignEdits a = (min_distance.alignEdits (toMD a)).map (List.map capEval) := by
  rw [alignEdits, min_distance.alignEdits]
  by_cases hh : a.hyp.length = 0
  · rw [if_pos hh, if_pos (show (toMD a).hyp.length = 0 from hh), zero_length_cap]
    rfl
  · rw [if_neg hh, if_neg (show ¬(toMD a).hyp.length = 0 from hh), backtrace_cap]

end aligner

theorem total_score_cap (es : List Edit) :
    total_score (es.map capEval) = total_score es := by
  simp only [total_score, List.map_map]
  rfl

theorem region_score_cap (es : List Edit) :
    region_score (es.map capEval) = region_score es := by
  simp only [region_score, List.map_map]
  rfl

theorem report_cap (m : Bool) (es : List Edit) (sc : List ℕ) :
    report m (es.map capEval) sc = report m es sc := by
  rw [report, report]
  have h1 : (es.map capEval).map Edit.ref = es.map Edit.ref := by
    rw [List.map_map]; rfl
  have h2 : (es.map capEval).map Edit.hyp = es.map Edit.hyp := by
    rw [List.map_map]; rfl
  have h3 : (es.map capEval).map (fun e => pyUpper e.eval) =
      es.map (fun e => pyUpper e.eval) := by
    rw [List.map_map]
    apply List.map_congr_left
    intro e _
    exact pyUpper_pyUpper e.eval
  rw [h1, h2, h3]

/-- C10: the two modules are behaviourally equivalent: for every pair
of sentences, every weight configuration and flag value, `aligner`'s
`MinDistance.align` and `min_distance`'s `MinDistance.align` return the
same report string and the same Score Tuple. -/
theorem C10_modules_equivalent (ref hyp : List String) (iW dW sW : ℚ) (b : Bool) :
    aligner.align ⟨ref, hyp, iW, dW, sW, b⟩ =
      min_distance.align ⟨ref, hyp, iW, dW, sW, b⟩ := by
  rw [aligner.align, min_distance.align]
  by_cases hr : ref.length = 0
  · rw [if_pos hr, if_pos hr]
  · rw [if_neg hr, if_neg hr]
    have hcap := aligner.alignEdits_cap ⟨ref, hyp, iW, dW, sW, b⟩
    rw [show aligner.toMD ⟨ref, hyp, iW, dW, sW, b⟩ =
      (⟨ref, hyp, iW, dW, sW, b⟩ : min_distance.MinDistance) from rfl] at hcap
    rw [hcap]
    cases min_distance.alignEdits ⟨ref, hyp, iW, dW, sW, b⟩ with
    | none => rfl
    | some es =>
      simp only [Option.map_some']
      dsimp only
      cases b
      · simp only [Bool.false_eq_true, if_false]
        rw [total_score_cap, report_cap]
      · simp only [if_true]
        rw [region_score_cap, report_cap]
